import Mathlib

/-!
Verification of the evaluation-metrics module of the ai-music-detection-lab
repository (`src/common/metrics.py`).

The module's functions are shallowly embedded over `List ℚ` (classifier
scores, idealising Python floats as rationals) and `List ℕ` (binary labels).
Fallible Python code (exceptions raised by `sklearn` / tuple unpacking /
numpy broadcasting failures) is embedded as `Except String _`.  A numpy
float NaN that is *returned* (not raised) is embedded as `Option ℚ` with
`none` denoting NaN; the prepended `np.inf` ROC threshold is likewise the
`none` of an `Option ℚ`.

The library calls (`sklearn.metrics.confusion_matrix`, `roc_curve`, `auc`,
`np.nanargmin`, `np.trapz`, numpy broadcasting of `==`) are embedded from
their library semantics, since the repository delegates to them.  Labels are
`ℕ`; the `pos_label` validation of sklearn for non-binary label sets is not
modelled because every claim restricts labels to {0,1} (the data model of
the module).  Scores are modelled 1-D; the 2-D column-1 selection branch of
the Python code is outside every claim.
-/

namespace MetricsPy

/-- `binary_preds = (predictions >= threshold).astype(int)` -/
def binarize (predictions : List ℚ) (threshold : ℚ) : List ℕ :=
  predictions.map (fun s => if threshold ≤ s then 1 else 0)

/-- numpy elementwise `==` between two 1-D integer arrays, including the
broadcasting rule: equal lengths compare pointwise; a length-1 array is
broadcast against the other; otherwise the operation fails. -/
def npBroadcastEq (a b : List ℕ) : Option (List Bool) :=
  if a.length = b.length then some (List.zipWith (fun x y => decide (x = y)) a b)
  else if a.length = 1 then some (b.map (fun y => decide (a.headD 0 = y)))
  else if b.length = 1 then some (a.map (fun x => decide (x = b.headD 0)))
  else none

/-- `calculate_accuracy` (metrics.py lines 25-54):
binarize, compare elementwise to the labels (numpy broadcasting semantics),
`correct = (binary_preds == labels).sum()`, `total = len(labels)`, and
return `correct / total if total > 0 else 0.0`. -/
def calculate_accuracy (predictions : List ℚ) (labels : List ℕ)
    (threshold : ℚ) : Except String ℚ :=
  match npBroadcastEq (binarize predictions threshold) labels with
  | none => .error "operands could not be broadcast together"
  | some eqs =>
    if 0 < labels.length then
      .ok ((eqs.count true : ℚ) / (labels.length : ℚ))
    else .ok 0

/-- Number of (true label, predicted label) pairs equal to `(l, p)`. -/
def countPair (pairs : List (ℕ × ℕ)) (l p : ℕ) : ℕ :=
  (pairs.filter (fun x => decide (x.1 = l) && decide (x.2 = p))).length

/-- `np.unique`: sorted distinct values of a list. -/
def uniqueSorted (l : List ℕ) : List ℕ :=
  l.dedup.insertionSort (· ≤ ·)

/-- `tn, fp, fn, tp = confusion_matrix(labels, binary_preds).ravel()`:
sklearn's `confusion_matrix` with default `labels=None` builds a k×k matrix
over the sorted distinct values occurring in either input
(`C[i][j]` = #(true = vals[i], pred = vals[j])); the 4-tuple unpacking of
`.ravel()` succeeds exactly when k = 2, and sklearn itself raises when the
two inputs have different lengths. -/
def confusionRavel (y_true y_pred : List ℕ) : Except String (ℕ × ℕ × ℕ × ℕ) :=
  if y_true.length ≠ y_pred.length then
    .error "Found input variables with inconsistent numbers of samples"
  else
    match uniqueSorted (y_true ++ y_pred) with
    | [a, b] =>
      let pairs := y_true.zip y_pred
      .ok (countPair pairs a a, countPair pairs a b,
           countPair pairs b a, countPair pairs b b)
    | _ => .error "not enough values to unpack"

/-- The metrics mapping returned by `calculate_metrics`. -/
structure Metrics where
  accuracy : ℚ
  precision : ℚ
  /-- the `'recall'` key of the Python dict (`recall` is reserved in Lean) -/
  recall' : ℚ
  specificity : ℚ
  f1_score : ℚ
  fpr : ℚ
  fnr : ℚ
  tp : ℕ
  tn : ℕ
  fp : ℕ
  fn : ℕ
deriving DecidableEq

/-- `calculate_metrics` (metrics.py lines 57-97): binarize, unpack the
confusion matrix, then build the mapping; each ratio guards its denominator
with `if (den) > 0 else 0`. -/
def calculate_metrics (predictions : List ℚ) (labels : List ℕ)
    (threshold : ℚ) : Except String Metrics :=
  match confusionRavel labels (binarize predictions threshold) with
  | .error e => .error e
  | .ok (tn, fp, fn, tp) =>
    .ok
      { accuracy := if 0 < tp + tn + fp + fn then
          ((tp : ℚ) + tn) / ((tp : ℚ) + tn + fp + fn) else 0
        precision := if 0 < tp + fp then (tp : ℚ) / ((tp : ℚ) + fp) else 0
        recall' := if 0 < tp + fn then (tp : ℚ) / ((tp : ℚ) + fn) else 0
        specificity := if 0 < tn + fp then (tn : ℚ) / ((tn : ℚ) + fp) else 0
        f1_score := if 0 < 2 * tp + fp + fn then
          (2 * (tp : ℚ)) / (2 * (tp : ℚ) + fp + fn) else 0
        fpr := if 0 < fp + tn then (fp : ℚ) / ((fp : ℚ) + tn) else 0
        fnr := if 0 < fn + tp then (fn : ℚ) / ((fn : ℚ) + tp) else 0
        tp := tp, tn := tn, fp := fp, fn := fn }

/-! ### sklearn ROC machinery (`roc_curve`, `auc`) and `calculate_eer` -/

/-- Stable sort of (score, label) pairs by descending score
(`np.argsort(kind="mergesort")[::-1]`; the within-tie order is irrelevant
because only counts at distinct-score boundaries are read off). -/
def sortDescPairs (pairs : List (ℚ × ℕ)) : List (ℚ × ℕ) :=
  pairs.insertionSort (fun p q => q.1 ≤ p.1)

/-- score/label pairs sorted by decreasing score (`_binary_clf_curve`). -/
def rocPoints (y_true : List ℕ) (y_score : List ℚ) : List (ℚ × ℕ) :=
  sortDescPairs (y_score.zip y_true)

def rocScores (y_true : List ℕ) (y_score : List ℚ) : List ℚ :=
  (rocPoints y_true y_score).map Prod.fst

def rocLabels (y_true : List ℕ) (y_score : List ℚ) : List ℕ :=
  (rocPoints y_true y_score).map Prod.snd

/-- `threshold_idxs = np.r_[np.where(np.diff(y_score))[0], y_true.size-1]`:
the positions ending each run of equal (sorted) scores, which always
include the final position. -/
def thresholdIdxs (y_true : List ℕ) (y_score : List ℚ) : List ℕ :=
  let ss := rocScores y_true y_score
  (List.range ss.length).filter
    (fun i => decide (i + 1 = ss.length) || decide (ss.getD i 0 ≠ ss.getD (i + 1) 0))

/-- `np.cumsum(y_true)[i]` for the descending-sorted labels: the number of
positives among the first `m` sorted samples (labels are 0/1 in the data
model, so the sum is the count of 1s). -/
def cumPos (ys : List ℕ) (m : ℕ) : ℕ := (ys.take m).sum

/-- `tps = np.cumsum(y_true)[threshold_idxs]` -/
def tpsOf (y_true : List ℕ) (y_score : List ℚ) : List ℕ :=
  (thresholdIdxs y_true y_score).map
    (fun i => cumPos (rocLabels y_true y_score) (i + 1))

/-- `fps = 1 + threshold_idxs - tps` -/
def fpsOf (y_true : List ℕ) (y_score : List ℚ) : List ℕ :=
  (thresholdIdxs y_true y_score).map
    (fun i => i + 1 - cumPos (rocLabels y_true y_score) (i + 1))

/-- `thresholds = y_score[threshold_idxs]` -/
def thsOf (y_true : List ℕ) (y_score : List ℚ) : List ℚ :=
  (thresholdIdxs y_true y_score).map
    (fun i => (rocScores y_true y_score).getD i 0)

/-- The mask `np.r_[True, np.logical_or(np.diff(fps, 2), np.diff(tps, 2)), True]`
of `drop_intermediate`: keep the endpoints and every corner where a second
difference of `fps` or `tps` is non-zero. -/
def keepIdx (fps tps : List ℕ) (i : ℕ) : Bool :=
  decide (i = 0) || decide (i = fps.length - 1) ||
  decide ((fps.getD (i + 1) 0 : ℤ) - 2 * (fps.getD i 0 : ℤ) + (fps.getD (i - 1) 0 : ℤ) ≠ 0) ||
  decide ((tps.getD (i + 1) 0 : ℤ) - 2 * (tps.getD i 0 : ℤ) + (tps.getD (i - 1) 0 : ℤ) ≠ 0)

def optimalIdxs (fps tps : List ℕ) : List ℕ :=
  (List.range fps.length).filter (keepIdx fps tps)

/-- `drop_intermediate=True` branch of `roc_curve`: when more than two
points exist, keep only the `optimal_idxs` of all three arrays. -/
def dropIntermediate (fps tps : List ℕ) (ths : List ℚ) :
    List ℕ × List ℕ × List ℚ :=
  if 2 < fps.length then
    ((optimalIdxs fps tps).map (fun j => fps.getD j 0),
     (optimalIdxs fps tps).map (fun j => tps.getD j 0),
     (optimalIdxs fps tps).map (fun j => ths.getD j 0))
  else (fps, tps, ths)

/-- `fps = np.r_[0, fps]` after `drop_intermediate`. -/
def rocFps (y_true : List ℕ) (y_score : List ℚ) : List ℕ :=
  0 :: (dropIntermediate (fpsOf y_true y_score) (tpsOf y_true y_score)
    (thsOf y_true y_score)).1

/-- `tps = np.r_[0, tps]` after `drop_intermediate`. -/
def rocTps (y_true : List ℕ) (y_score : List ℚ) : List ℕ :=
  0 :: (dropIntermediate (fpsOf y_true y_score) (tpsOf y_true y_score)
    (thsOf y_true y_score)).2.1

/-- `thresholds = np.r_[np.inf, thresholds]` after `drop_intermediate`
(`none` is the `np.inf` prepended by sklearn ≥ 1.3). -/
def rocThs (y_true : List ℕ) (y_score : List ℚ) : List (Option ℚ) :=
  none :: (dropIntermediate (fpsOf y_true y_score) (tpsOf y_true y_score)
    (thsOf y_true y_score)).2.2.map some

/-- `sklearn.metrics.roc_curve(y_true, y_score)` (defaults: `pos_label=1`,
`drop_intermediate=True`): returns `(fpr, tpr, thresholds)` where a `(0,0)`
point with threshold `np.inf` (the `none` of the threshold list) is
prepended, `fpr = fps / fps[-1]` and `tpr = tps / tps[-1]`; when a
denominator is 0 the whole rate array is NaN (`none`), with only an
`UndefinedMetricWarning` emitted — and `metrics.py` line 18 suppresses all
warnings. -/
def roc_curve (y_true : List ℕ) (y_score : List ℚ) :
    List (Option ℚ) × List (Option ℚ) × List (Option ℚ) :=
  ((rocFps y_true y_score).map (fun (x : ℕ) =>
      if (rocFps y_true y_score).getLastD 0 = 0 then none
      else some ((x : ℚ) / ((rocFps y_true y_score).getLastD 0 : ℚ))),
   (rocTps y_true y_score).map (fun (x : ℕ) =>
      if (rocTps y_true y_score).getLastD 0 = 0 then none
      else some ((x : ℚ) / ((rocTps y_true y_score).getLastD 0 : ℚ))),
   rocThs y_true y_score)

/-- `fpr` of `roc_curve(labels, predictions)` as used by the metric
functions (argument order of the Python call sites). -/
def rocFpr (predictions : List ℚ) (labels : List ℕ) : List (Option ℚ) :=
  (roc_curve labels predictions).1

def rocTpr (predictions : List ℚ) (labels : List ℕ) : List (Option ℚ) :=
  (roc_curve labels predictions).2.1

def rocThresholds (predictions : List ℚ) (labels : List ℕ) : List (Option ℚ) :=
  (roc_curve labels predictions).2.2

/-- `fnr = 1 - tpr` (NaN-propagating). -/
def eerFnr (predictions : List ℚ) (labels : List ℕ) : List (Option ℚ) :=
  (rocTpr predictions labels).map (Option.map (fun t => 1 - t))

/-- `np.abs(fpr - fnr)` (NaN-propagating). -/
def eerDiffs (fpr fnr : List (Option ℚ)) : List (Option ℚ) :=
  (fpr.zip fnr).map (fun ab =>
    match ab.1, ab.2 with
    | some a, some b => some |a - b|
    | _, _ => none)

/-- `np.nanargmin`: the first index holding the least non-NaN value,
together with that value; `none` when every entry is NaN (numpy raises
`ValueError` in that case). -/
def nanArgminVal : List (Option ℚ) → Option (ℕ × ℚ)
  | [] => none
  | none :: rest => (nanArgminVal rest).map (fun p => (p.1 + 1, p.2))
  | some v :: rest =>
    match nanArgminVal rest with
    | none => some (0, v)
    | some (j, w) => if w < v then some (j + 1, w) else some (0, v)

/-- `calculate_eer` (metrics.py lines 130-160): ROC curve, `fnr = 1 - tpr`,
`eer_index = np.nanargmin(np.abs(fpr - fnr))`,
returns `((fpr[i] + fnr[i]) / 2, thresholds[i])`.  The consistency check of
sklearn raises on length-mismatched inputs, and `np.nanargmin` raises on an
all-NaN argument (which is what a one-class label vector produces). -/
def calculate_eer (predictions : List ℚ) (labels : List ℕ) :
    Except String (ℚ × Option ℚ) :=
  if predictions.length ≠ labels.length then
    .error "Found input variables with inconsistent numbers of samples"
  else
    match nanArgminVal (eerDiffs (rocFpr predictions labels) (eerFnr predictions labels)) with
    | none => .error "All-NaN slice encountered"
    | some iv =>
      match (rocFpr predictions labels).getD iv.1 none,
            (eerFnr predictions labels).getD iv.1 none with
      | some a, some b =>
        .ok ((a + b) / 2, (rocThresholds predictions labels).getD iv.1 none)
      | _, _ => .error "unreachable index"

/-- `np.diff` (NaN-propagating). -/
def npDiff (l : List (Option ℚ)) : List (Option ℚ) :=
  (l.zip l.tail).map (fun ab =>
    match ab.1, ab.2 with
    | some a, some b => some (b - a)
    | _, _ => none)

/-- `np.any(dx < 0)`: a NaN comparison is `False`. -/
def npAnyLt0 (l : List (Option ℚ)) : Bool :=
  l.any (fun x => match x with | some v => decide (v < 0) | none => false)

/-- `np.all(dx <= 0)`: a NaN comparison is `False`. -/
def npAllLe0 (l : List (Option ℚ)) : Bool :=
  l.all (fun x => match x with | some v => decide (v ≤ 0) | none => false)

/-- One trapezoid of `np.trapz`, NaN-propagating. -/
def trapzStep (acc : Option ℚ)
    (seg : (Option ℚ × Option ℚ) × (Option ℚ × Option ℚ)) : Option ℚ :=
  match acc, seg with
  | some s, ((some x0, some x1), (some y0, some y1)) =>
    some (s + (x1 - x0) * (y0 + y1) / 2)
  | _, _ => none

/-- `np.trapz(y, x)`: trapezoidal integration, NaN-propagating. -/
def trapz (y x : List (Option ℚ)) : Option ℚ :=
  ((x.zip x.tail).zip (y.zip y.tail)).foldl trapzStep (some 0)

/-- `sklearn.metrics.auc(x, y)`: raises below 2 points or on a
non-monotonic `x`; negates the area when `x` is decreasing.  A NaN array
passes the monotonicity test (every NaN comparison is `False`) and yields a
NaN area. -/
def sklearnAuc (x y : List (Option ℚ)) : Except String (Option ℚ) :=
  if x.length ≠ y.length then
    .error "Found input variables with inconsistent numbers of samples"
  else if x.length < 2 then
    .error "At least 2 points are needed to compute area under curve"
  else if npAnyLt0 (npDiff x) then
    if npAllLe0 (npDiff x) then .ok ((trapz y x).map (fun a => -a))
    else .error "x is neither increasing nor decreasing"
  else .ok (trapz y x)

/-- `calculate_auc_roc` (metrics.py lines 101-126, `return_curve=False`):
`fpr, tpr, _ = roc_curve(labels, predictions); auc(fpr, tpr)`.  The result
is a float that is NaN (`none`) whenever the rates are undefined. -/
def calculate_auc_roc (predictions : List ℚ) (labels : List ℕ) :
    Except String (Option ℚ) :=
  if predictions.length ≠ labels.length then
    .error "Found input variables with inconsistent numbers of samples"
  else sklearnAuc (rocFpr predictions labels) (rocTpr predictions labels)

/-! ### `generate_evaluation_report` and Python fixed-point formatting -/

/-- Round to the nearest integer, ties to even (the rounding of Python's
fixed-point `format`). -/
def roundHalfEven (q : ℚ) : ℤ :=
  let fl := Rat.floor q
  let frac := q - (fl : ℚ)
  if frac < 1 / 2 then fl
  else if frac = 1 / 2 then (if fl % 2 = 0 then fl else fl + 1)
  else fl + 1

def padZeros (s : String) (n : ℕ) : String :=
  String.mk (List.replicate (n - s.length) '0' ++ s.data)

/-- Python `f"{q:.df}"` on a finite float, idealised over ℚ. -/
def pyFmt (decimals : ℕ) (q : ℚ) : String :=
  let scaled := roundHalfEven (q * ((10 : ℚ) ^ decimals))
  let sign := if scaled < 0 then "-" else ""
  let a := scaled.natAbs
  if decimals = 0 then sign ++ toString a
  else sign ++ toString (a / 10 ^ decimals) ++ "." ++
    padZeros (toString (a % 10 ^ decimals)) decimals

/-- Formatting of the AUC value, whose NaN prints as `nan`. -/
def pyFmtNan (decimals : ℕ) : Option ℚ → String
  | some q => pyFmt decimals q
  | none => "nan"

/-- Formatting of the EER threshold, whose `np.inf` prints as `inf`. -/
def pyFmtInf (decimals : ℕ) : Option ℚ → String
  | some q => pyFmt decimals q
  | none => "inf"

/-- `'=' * 60` -/
def eqLine : String := String.mk (List.replicate 60 '=')

/-- The f-string of `generate_evaluation_report` (metrics.py lines
300-331), split at each interpolated value.  All classification metrics,
error rates and the AUC use `:.4f`; the four confusion counts use `:.0f`. -/
def reportTemplate (model_name : String) (m : Metrics) (auc_score : Option ℚ)
    (eer : ℚ) (eer_threshold : Option ℚ) : String :=
  "\n    " ++ eqLine ++ "\n    " ++ model_name ++ " 평가 리포트\n    " ++ eqLine ++
  "\n\n    분류 메트릭:\n    ----------" ++
  "\n    정확도 (Accuracy):    " ++ pyFmt 4 m.accuracy ++
  "\n    정밀도 (Precision):   " ++ pyFmt 4 m.precision ++
  "\n    재현율 (Recall):      " ++ pyFmt 4 m.recall' ++
  "\n    F1-Score:            " ++ pyFmt 4 m.f1_score ++
  "\n    특이도 (Specificity): " ++ pyFmt 4 m.specificity ++
  "\n\n    오류율:\n    ----------" ++
  "\n    오탐율 (FPR): " ++ pyFmt 4 m.fpr ++
  "\n    미탐율 (FNR): " ++ pyFmt 4 m.fnr ++
  "\n    EER:         " ++ pyFmt 4 eer ++ " (임계값: " ++ pyFmtInf 4 eer_threshold ++ ")" ++
  "\n\n    ROC 분석:\n    ----------" ++
  "\n    AUC-ROC:    " ++ pyFmtNan 4 auc_score ++
  "\n\n    혼동 행렬:\n    ----------" ++
  "\n    True Positives (AI를 AI로):     " ++ pyFmt 0 (m.tp : ℚ) ++
  "\n    True Negatives (사람을 사람으로):  " ++ pyFmt 0 (m.tn : ℚ) ++
  "\n    False Positives (사람을 AI로):   " ++ pyFmt 0 (m.fp : ℚ) ++
  "\n    False Negatives (AI를 사람으로):  " ++ pyFmt 0 (m.fn : ℚ) ++
  "\n\n    " ++ eqLine ++ "\n    "

/-- `generate_evaluation_report` (metrics.py lines 282-333): composes
`calculate_metrics` (default threshold 0.5), `calculate_auc_roc` and
`calculate_eer`, then formats the template; any exception of the three
calls propagates. -/
def generate_evaluation_report (predictions : List ℚ) (labels : List ℕ)
    (model_name : String) : Except String String :=
  match calculate_metrics predictions labels (1 / 2) with
  | .error e => .error e
  | .ok metrics =>
    match calculate_auc_roc predictions labels with
    | .error e => .error e
    | .ok auc_score =>
      match calculate_eer predictions labels with
      | .error e => .error e
      | .ok ee => .ok (reportTemplate model_name metrics auc_score ee.1 ee.2)

/-- Substring test used to state facts about the report text:
`leadsWith n h` holds when `n` is an initial run of `h`. -/
def leadsWith : List Char → List Char → Bool
  | [], _ => true
  | _ :: _, [] => false
  | a :: as, b :: bs => a == b && leadsWith as bs

def occursIn (needle : List Char) : List Char → Bool
  | [] => leadsWith needle []
  | c :: cs => leadsWith needle (c :: cs) || occursIn needle cs

/-- `occursStr hay needle`: `needle` occurs as a contiguous substring. -/
def occursStr (hay needle : String) : Bool :=
  occursIn needle.data hay.data

/-! ### Lemmas about the confusion-matrix embedding -/

theorem mem_uniqueSorted {x : ℕ} {l : List ℕ} : x ∈ uniqueSorted l ↔ x ∈ l := by
  unfold uniqueSorted
  rw [List.mem_insertionSort, List.mem_dedup]

theorem nodup_uniqueSorted (l : List ℕ) : (uniqueSorted l).Nodup :=
  ((List.perm_insertionSort _ _).nodup_iff).mpr (List.nodup_dedup l)

/-- The four cells of a 2×2 confusion matrix partition the sample pairs. -/
theorem countPair_partition (pairs : List (ℕ × ℕ)) (a b : ℕ) (hab : a ≠ b)
    (h : ∀ x ∈ pairs, (x.1 = a ∨ x.1 = b) ∧ (x.2 = a ∨ x.2 = b)) :
    countPair pairs a a + countPair pairs a b + countPair pairs b a +
      countPair pairs b b = pairs.length := by
  induction pairs with
  | nil => simp [countPair]
  | cons x xs ih =>
    have hx := h x (List.mem_cons_self _ _)
    have ihh := ih (fun y hy => h y (List.mem_cons_of_mem _ hy))
    simp only [countPair, List.filter_cons, List.length_cons] at *
    rcases hx.1 with h1 | h1 <;> rcases hx.2 with h2 | h2 <;>
      simp [h1, h2, hab, Ne.symm hab] <;> omega

theorem zip_self_fst_eq_snd {l : List ℕ} : ∀ x ∈ l.zip l, x.1 = x.2 := by
  induction l with
  | nil => simp
  | cons a t ih =>
    intro x hx
    rw [List.zip_cons_cons, List.mem_cons] at hx
    rcases hx with rfl | hx
    · rfl
    · exact ih x hx

theorem mem_zip_self {a : ℕ} {l : List ℕ} (h : a ∈ l) : (a, a) ∈ l.zip l := by
  induction l with
  | nil => simp at h
  | cons x t ih =>
    rw [List.mem_cons] at h
    rw [List.zip_cons_cons, List.mem_cons]
    rcases h with rfl | h
    · exact Or.inl rfl
    · exact Or.inr (ih h)

theorem countPair_zip_self_offdiag {l : List ℕ} {a b : ℕ} (hab : a ≠ b) :
    countPair (l.zip l) a b = 0 := by
  unfold countPair
  rw [List.length_eq_zero, List.filter_eq_nil_iff]
  intro x hx
  have := zip_self_fst_eq_snd x hx
  simp only [Bool.and_eq_true, decide_eq_true_eq]
  rintro ⟨rfl, rfl⟩
  exact hab this

theorem countPair_pos_of_mem {pairs : List (ℕ × ℕ)} {a b : ℕ}
    (h : (a, b) ∈ pairs) : 0 < countPair pairs a b := by
  unfold countPair
  have : (a, b) ∈ pairs.filter (fun x => decide (x.1 = a) && decide (x.2 = b)) :=
    List.mem_filter.mpr ⟨h, by simp⟩
  exact List.length_pos.mpr (List.ne_nil_of_mem this)

/-- `(binary_preds == labels).sum()` counts the agreeing index pairs. -/
theorem count_true_zipWith (preds ls : List ℕ) :
    (List.zipWith (fun x y => decide (x = y)) preds ls).count true
      = ((ls.zip preds).filter (fun x => decide (x.1 = x.2))).length := by
  induction preds generalizing ls with
  | nil => simp
  | cons p ps ih =>
    cases ls with
    | nil => simp
    | cons l t =>
      rw [List.zipWith_cons_cons, List.zip_cons_cons, List.count_cons,
        List.filter_cons]
      by_cases hpl : p = l
      · subst hpl
        simp [ih]
      · simp [hpl, Ne.symm hpl, ih]

/-- Agreement count = diagonal of the 2×2 confusion matrix. -/
theorem filter_diag_eq_countPair (pairs : List (ℕ × ℕ)) (a b : ℕ) (hab : a ≠ b)
    (h : ∀ x ∈ pairs, (x.1 = a ∨ x.1 = b) ∧ (x.2 = a ∨ x.2 = b)) :
    (pairs.filter (fun x => decide (x.1 = x.2))).length
      = countPair pairs a a + countPair pairs b b := by
  induction pairs with
  | nil => simp [countPair]
  | cons x xs ih =>
    have hx := h x (List.mem_cons_self _ _)
    have ihh := ih (fun y hy => h y (List.mem_cons_of_mem _ hy))
    simp only [countPair, List.filter_cons] at *
    rcases hx.1 with h1 | h1 <;> rcases hx.2 with h2 | h2 <;>
      simp [h1, h2, hab, Ne.symm hab] <;> omega

/-- Inversion of a successful `confusionRavel`. -/
theorem confusionRavel_ok {yt yp : List ℕ} {tn fp fn tp : ℕ}
    (h : confusionRavel yt yp = .ok (tn, fp, fn, tp)) :
    yt.length = yp.length ∧
    ∃ a b, uniqueSorted (yt ++ yp) = [a, b] ∧
      tn = countPair (yt.zip yp) a a ∧ fp = countPair (yt.zip yp) a b ∧
      fn = countPair (yt.zip yp) b a ∧ tp = countPair (yt.zip yp) b b := by
  unfold confusionRavel at h
  split at h
  · exact absurd h (by simp)
  · rename_i hlen
    split at h
    · rename_i a b heq
      refine ⟨by omega, a, b, heq, ?_⟩
      simp only [Except.ok.injEq, Prod.mk.injEq] at h
      obtain ⟨h1, h2, h3, h4⟩ := h
      exact ⟨h1.symm, h2.symm, h3.symm, h4.symm⟩
    · exact absurd h (by simp)

/-- From a two-element `np.unique`, the two values are distinct and every
sample pair takes its coordinates among them. -/
theorem confusionRavel_shape {yt yp : List ℕ} {a b : ℕ}
    (hus : uniqueSorted (yt ++ yp) = [a, b]) :
    a ≠ b ∧ ∀ x ∈ yt.zip yp, (x.1 = a ∨ x.1 = b) ∧ (x.2 = a ∨ x.2 = b) := by
  have hnd := nodup_uniqueSorted (yt ++ yp)
  rw [hus] at hnd
  have hab : a ≠ b := by simpa using hnd
  refine ⟨hab, ?_⟩
  intro x hx
  have hx1 : x.1 ∈ yt := (List.of_mem_zip hx).1
  have hx2 : x.2 ∈ yp := (List.of_mem_zip hx).2
  constructor
  · have : x.1 ∈ uniqueSorted (yt ++ yp) :=
      mem_uniqueSorted.mpr (List.mem_append_left _ hx1)
    rw [hus] at this
    simpa using this
  · have : x.2 ∈ uniqueSorted (yt ++ yp) :=
      mem_uniqueSorted.mpr (List.mem_append_right _ hx2)
    rw [hus] at this
    simpa using this

/-- tp + tn + fp + fn exhausts the samples of a successful confusion
matrix. -/
theorem confusion_sum {yt yp : List ℕ} {tn fp fn tp : ℕ}
    (h : confusionRavel yt yp = .ok (tn, fp, fn, tp)) :
    tp + tn + fp + fn = yt.length := by
  obtain ⟨hlen, a, b, hus, h1, h2, h3, h4⟩ := confusionRavel_ok h
  obtain ⟨hab, hcoords⟩ := confusionRavel_shape hus
  have hpart := countPair_partition (yt.zip yp) a b hab hcoords
  rw [List.length_zip, ← hlen, min_self] at hpart
  omega

/-- Inversion of a successful `calculate_metrics`: the confusion counts it
carries come from `confusionRavel`, and each ratio field is the guarded
quotient of its counts. -/
theorem calculate_metrics_ok {s : List ℚ} {l : List ℕ} {t : ℚ} {m : Metrics}
    (h : calculate_metrics s l t = .ok m) :
    confusionRavel l (binarize s t) = .ok (m.tn, m.fp, m.fn, m.tp) ∧
    m.accuracy = (if 0 < m.tp + m.tn + m.fp + m.fn then
      ((m.tp : ℚ) + m.tn) / ((m.tp : ℚ) + m.tn + m.fp + m.fn) else 0) ∧
    m.precision = (if 0 < m.tp + m.fp then (m.tp : ℚ) / ((m.tp : ℚ) + m.fp) else 0) ∧
    m.recall' = (if 0 < m.tp + m.fn then (m.tp : ℚ) / ((m.tp : ℚ) + m.fn) else 0) ∧
    m.specificity = (if 0 < m.tn + m.fp then (m.tn : ℚ) / ((m.tn : ℚ) + m.fp) else 0) ∧
    m.f1_score = (if 0 < 2 * m.tp + m.fp + m.fn then
      (2 * (m.tp : ℚ)) / (2 * (m.tp : ℚ) + m.fp + m.fn) else 0) ∧
    m.fpr = (if 0 < m.fp + m.tn then (m.fp : ℚ) / ((m.fp : ℚ) + m.tn) else 0) ∧
    m.fnr = (if 0 < m.fn + m.tp then (m.fn : ℚ) / ((m.fn : ℚ) + m.tp) else 0) := by
  unfold calculate_metrics at h
  split at h
  · exact absurd h (by simp)
  · rename_i tn fp fn tp heq
    simp only [Except.ok.injEq] at h
    subst h
    exact ⟨heq, rfl, rfl, rfl, rfl, rfl, rfl, rfl⟩

/-! ### Claim theorems: confusion-matrix metrics -/

/-- C1 (counterexample): on `scores=[0.9]`, `labels=[1]`, `threshold=0.5`
the union of labels and binarized predictions holds a single distinct
value, the confusion matrix is 1×1, and the 4-tuple unpacking of
`calculate_metrics` raises instead of returning the mapping — refuting the
unrestricted "for every scores array, labels array, and threshold". -/
theorem calculate_metrics_single_class_raises :
    calculate_metrics [9/10] [1] (1/2) = .error "not enough values to unpack" := by
  with_unfolding_all rfl

/-- C1 (amended): whenever the two arrays have equal length and at least
two distinct values occur among the labels and the binarized predictions
(so the confusion matrix is 2×2 and unpacks), `calculate_metrics` returns
the fully populated mapping in which accuracy=(tp+tn)/N,
precision=tp/(tp+fp), recall=tp/(tp+fn), specificity=tn/(tn+fp),
f1=2tp/(2tp+fp+fn), fpr=fp/(fp+tn), fnr=fn/(fn+tp), and every ratio whose
denominator is 0 is 0 — no zero denominator raises. -/
theorem calculate_metrics_zero_denominator_policy
    (predictions : List ℚ) (labels : List ℕ) (threshold : ℚ)
    (hlen : labels.length = predictions.length)
    (h2 : ∃ a b, uniqueSorted (labels ++ binarize predictions threshold) = [a, b]) :
    ∃ m : Metrics, calculate_metrics predictions labels threshold = .ok m ∧
      m.accuracy = (if 0 < m.tp + m.tn + m.fp + m.fn then
        ((m.tp : ℚ) + m.tn) / (labels.length : ℚ) else 0) ∧
      m.precision = (if 0 < m.tp + m.fp then (m.tp : ℚ) / ((m.tp : ℚ) + m.fp) else 0) ∧
      m.recall' = (if 0 < m.tp + m.fn then (m.tp : ℚ) / ((m.tp : ℚ) + m.fn) else 0) ∧
      m.specificity = (if 0 < m.tn + m.fp then (m.tn : ℚ) / ((m.tn : ℚ) + m.fp) else 0) ∧
      m.f1_score = (if 0 < 2 * m.tp + m.fp + m.fn then
        (2 * (m.tp : ℚ)) / (2 * (m.tp : ℚ) + m.fp + m.fn) else 0) ∧
      m.fpr = (if 0 < m.fp + m.tn then (m.fp : ℚ) / ((m.fp : ℚ) + m.tn) else 0) ∧
      m.fnr = (if 0 < m.fn + m.tp then (m.fn : ℚ) / ((m.fn : ℚ) + m.tp) else 0) := by
  obtain ⟨a, b, hab⟩ := h2
  have hok : ∃ m : Metrics, calculate_metrics predictions labels threshold = .ok m := by
    unfold calculate_metrics confusionRavel
    rw [if_neg (by simp [binarize, hlen]), hab]
    exact ⟨_, rfl⟩
  obtain ⟨m, hm⟩ := hok
  refine ⟨m, hm, ?_⟩
  obtain ⟨hcr, hacc, hrest⟩ := calculate_metrics_ok hm
  have hsum := confusion_sum hcr
  refine ⟨?_, hrest⟩
  rw [hacc]
  by_cases hpos : 0 < m.tp + m.tn + m.fp + m.fn
  · rw [if_pos hpos, if_pos hpos, ← hsum]
    push_cast
    ring_nf
  · rw [if_neg hpos, if_neg hpos]

/-- C1 (witness): a concrete 2×2 run of the amended theorem. -/
theorem calculate_metrics_zero_denominator_policy_witness :
    ∃ m : Metrics, calculate_metrics [9/10, 1/10] [1, 0] (1/2) = .ok m ∧
      m.accuracy = (if 0 < m.tp + m.tn + m.fp + m.fn then
        ((m.tp : ℚ) + m.tn) / (([1, 0] : List ℕ).length : ℚ) else 0) ∧
      m.precision = (if 0 < m.tp + m.fp then (m.tp : ℚ) / ((m.tp : ℚ) + m.fp) else 0) ∧
      m.recall' = (if 0 < m.tp + m.fn then (m.tp : ℚ) / ((m.tp : ℚ) + m.fn) else 0) ∧
      m.specificity = (if 0 < m.tn + m.fp then (m.tn : ℚ) / ((m.tn : ℚ) + m.fp) else 0) ∧
      m.f1_score = (if 0 < 2 * m.tp + m.fp + m.fn then
        (2 * (m.tp : ℚ)) / (2 * (m.tp : ℚ) + m.fp + m.fn) else 0) ∧
      m.fpr = (if 0 < m.fp + m.tn then (m.fp : ℚ) / ((m.fp : ℚ) + m.tn) else 0) ∧
      m.fnr = (if 0 < m.fn + m.tp then (m.fn : ℚ) / ((m.fn : ℚ) + m.tp) else 0) :=
  calculate_metrics_zero_denominator_policy [9/10, 1/10] [1, 0] (1/2)
    (by rfl) ⟨0, 1, by with_unfolding_all rfl⟩

/-- C4: the four confusion counts of any mapping returned by
`calculate_metrics` are non-negative (they live in ℕ) and sum to the
common length N of the two input arrays. -/
theorem confusion_counts_sum_eq_length
    (predictions : List ℚ) (labels : List ℕ) (threshold : ℚ) (m : Metrics)
    (h : calculate_metrics predictions labels threshold = .ok m) :
    m.tp + m.tn + m.fp + m.fn = labels.length ∧
    m.tp + m.tn + m.fp + m.fn = predictions.length := by
  have hcr := (calculate_metrics_ok h).1
  have hsum := confusion_sum hcr
  have hlen := (confusionRavel_ok hcr).1
  simp only [binarize, List.length_map] at hlen
  exact ⟨hsum, by omega⟩

/-- C4 (witness). -/
theorem confusion_counts_sum_eq_length_witness :
    ({ accuracy := 1, precision := 1, recall' := 1, specificity := 1,
       f1_score := 1, fpr := 0, fnr := 0,
       tp := 1, tn := 1, fp := 0, fn := 0 } : Metrics).tp +
      ({ accuracy := 1, precision := 1, recall' := 1, specificity := 1,
         f1_score := 1, fpr := 0, fnr := 0,
         tp := 1, tn := 1, fp := 0, fn := 0 } : Metrics).tn +
      ({ accuracy := 1, precision := 1, recall' := 1, specificity := 1,
         f1_score := 1, fpr := 0, fnr := 0,
         tp := 1, tn := 1, fp := 0, fn := 0 } : Metrics).fp +
      ({ accuracy := 1, precision := 1, recall' := 1, specificity := 1,
         f1_score := 1, fpr := 0, fnr := 0,
         tp := 1, tn := 1, fp := 0, fn := 0 } : Metrics).fn
      = ([1, 0] : List ℕ).length ∧
    ({ accuracy := 1, precision := 1, recall' := 1, specificity := 1,
       f1_score := 1, fpr := 0, fnr := 0,
       tp := 1, tn := 1, fp := 0, fn := 0 } : Metrics).tp +
      ({ accuracy := 1, precision := 1, recall' := 1, specificity := 1,
         f1_score := 1, fpr := 0, fnr := 0,
         tp := 1, tn := 1, fp := 0, fn := 0 } : Metrics).tn +
      ({ accuracy := 1, precision := 1, recall' := 1, specificity := 1,
         f1_score := 1, fpr := 0, fnr := 0,
         tp := 1, tn := 1, fp := 0, fn := 0 } : Metrics).fp +
      ({ accuracy := 1, precision := 1, recall' := 1, specificity := 1,
         f1_score := 1, fpr := 0, fnr := 0,
         tp := 1, tn := 1, fp := 0, fn := 0 } : Metrics).fn
      = ([9/10, 1/10] : List ℚ).length :=
  confusion_counts_sum_eq_length [9/10, 1/10] [1, 0] (1/2) _ (by with_unfolding_all rfl)

/-- C6 (counterexample): with `scores=[0.9]` (length 1) and
`labels=[1,1,0]` (length 3), `calculate_accuracy` raises nothing — numpy
broadcasts the single binarized prediction across all three labels and a
numeric accuracy 2/3 is returned, refuting "each metrics operation
surfaces an error ... with no silent reuse of elements". -/
theorem calculate_accuracy_broadcast_no_error :
    calculate_accuracy [9/10] [1, 1, 0] (1/2) = .ok (2/3) := by
  with_unfolding_all rfl

/-- C6 (amended): on length-mismatched inputs, `calculate_metrics` always
surfaces an error; `calculate_accuracy` surfaces an error exactly when
neither array has length 1 — when either side has length 1, numpy
broadcasting silently reuses its single element instead. -/
theorem length_mismatch_surfaces_error
    (predictions : List ℚ) (labels : List ℕ) (threshold : ℚ)
    (hne : predictions.length ≠ labels.length) :
    (∃ e, calculate_metrics predictions labels threshold = .error e) ∧
    (predictions.length ≠ 1 → labels.length ≠ 1 →
      ∃ e, calculate_accuracy predictions labels threshold = .error e) := by
  have hblen : (binarize predictions threshold).length = predictions.length := by
    simp [binarize]
  constructor
  · refine ⟨"Found input variables with inconsistent numbers of samples", ?_⟩
    unfold calculate_metrics confusionRavel
    rw [if_pos (by omega)]
  · intro h1 h2
    refine ⟨"operands could not be broadcast together", ?_⟩
    unfold calculate_accuracy npBroadcastEq
    rw [if_neg (by omega), if_neg (by omega), if_neg (by omega)]

/-- C6 (witness): a 3-vs-2 mismatch errors in both operations. -/
theorem length_mismatch_surfaces_error_witness :
    (∃ e, calculate_metrics [9/10, 1/10, 5/10] [1, 0] (1/2) = .error e) ∧
    (([9/10, 1/10, 5/10] : List ℚ).length ≠ 1 → ([1, 0] : List ℕ).length ≠ 1 →
      ∃ e, calculate_accuracy [9/10, 1/10, 5/10] [1, 0] (1/2) = .error e) :=
  length_mismatch_surfaces_error [9/10, 1/10, 5/10] [1, 0] (1/2) (by decide)

/-- C7: whenever the binarized predictions coincide with the labels, any
mapping `calculate_metrics` returns has accuracy 1, fpr 0, fnr 0 and
f1_score 1. -/
theorem perfect_predictions_metrics
    (predictions : List ℚ) (labels : List ℕ) (threshold : ℚ) (m : Metrics)
    (hmatch : binarize predictions threshold = labels)
    (h : calculate_metrics predictions labels threshold = .ok m) :
    m.accuracy = 1 ∧ m.fpr = 0 ∧ m.fnr = 0 ∧ m.f1_score = 1 := by
  obtain ⟨hcr, hacc, _, _, _, hf1, hfpr, hfnr⟩ := calculate_metrics_ok h
  rw [hmatch] at hcr
  obtain ⟨hlen, a, b, hus, h1, h2, h3, h4⟩ := confusionRavel_ok hcr
  obtain ⟨hab, _⟩ := confusionRavel_shape hus
  have hfp : m.fp = 0 := by rw [h2]; exact countPair_zip_self_offdiag hab
  have hfn : m.fn = 0 := by rw [h3]; exact countPair_zip_self_offdiag (Ne.symm hab)
  have hbmem : b ∈ labels := by
    have hb : b ∈ uniqueSorted (labels ++ labels) := by rw [hus]; simp
    rcases List.mem_append.mp (mem_uniqueSorted.mp hb) with hb' | hb' <;> exact hb'
  have htp : 0 < m.tp := by rw [h4]; exact countPair_pos_of_mem (mem_zip_self hbmem)
  refine ⟨?_, ?_, ?_, ?_⟩
  · rw [hacc, if_pos (by omega), hfp, hfn]
    have hq : (0 : ℚ) < (m.tp : ℚ) + m.tn := by
      have : (0 : ℚ) < (m.tp : ℚ) := by exact_mod_cast htp
      have h2q : (0 : ℚ) ≤ (m.tn : ℚ) := by positivity
      linarith
    push_cast
    rw [add_zero, add_zero, div_self (ne_of_gt hq)]
  · rw [hfpr, hfp]
    split_ifs <;> simp
  · rw [hfnr, hfn]
    split_ifs <;> simp
  · rw [hf1, if_pos (by omega), hfp, hfn]
    have hq : (0 : ℚ) < 2 * (m.tp : ℚ) := by
      have : (0 : ℚ) < (m.tp : ℚ) := by exact_mod_cast htp
      linarith
    push_cast
    rw [add_zero, add_zero, div_self (ne_of_gt hq)]

/-- C7 (witness). -/
theorem perfect_predictions_metrics_witness :
    ({ accuracy := 1, precision := 1, recall' := 1, specificity := 1,
       f1_score := 1, fpr := 0, fnr := 0,
       tp := 1, tn := 1, fp := 0, fn := 0 } : Metrics).accuracy = 1 ∧
    ({ accuracy := 1, precision := 1, recall' := 1, specificity := 1,
       f1_score := 1, fpr := 0, fnr := 0,
       tp := 1, tn := 1, fp := 0, fn := 0 } : Metrics).fpr = 0 ∧
    ({ accuracy := 1, precision := 1, recall' := 1, specificity := 1,
       f1_score := 1, fpr := 0, fnr := 0,
       tp := 1, tn := 1, fp := 0, fn := 0 } : Metrics).fnr = 0 ∧
    ({ accuracy := 1, precision := 1, recall' := 1, specificity := 1,
       f1_score := 1, fpr := 0, fnr := 0,
       tp := 1, tn := 1, fp := 0, fn := 0 } : Metrics).f1_score = 1 :=
  perfect_predictions_metrics [8/10, 2/10] [1, 0] (1/2) _
    (by with_unfolding_all rfl) (by with_unfolding_all rfl)

/-- C9: whenever `calculate_metrics` returns a mapping, the standalone
`calculate_accuracy` on the same inputs returns exactly that mapping's
accuracy value. -/
theorem calculate_accuracy_refines_metrics
    (predictions : List ℚ) (labels : List ℕ) (threshold : ℚ) (m : Metrics)
    (h : calculate_metrics predictions labels threshold = .ok m) :
    calculate_accuracy predictions labels threshold = .ok m.accuracy := by
  obtain ⟨hcr, hacc, _⟩ := calculate_metrics_ok h
  obtain ⟨hlen, a, b, hus, h1, h2, h3, h4⟩ := confusionRavel_ok hcr
  obtain ⟨hab, hcoords⟩ := confusionRavel_shape hus
  have hsum := confusion_sum hcr
  have hNpos : 0 < labels.length := by
    have ha : a ∈ labels ++ binarize predictions threshold := by
      rw [← mem_uniqueSorted, hus]; simp
    rcases List.mem_append.mp ha with ha' | ha'
    · exact List.length_pos.mpr (List.ne_nil_of_mem ha')
    · have := List.length_pos.mpr (List.ne_nil_of_mem ha')
      omega
  have hcount : (List.zipWith (fun x y => decide (x = y))
      (binarize predictions threshold) labels).count true = m.tn + m.tp := by
    rw [count_true_zipWith,
      filter_diag_eq_countPair (labels.zip (binarize predictions threshold)) a b hab hcoords,
      h1, h4]
  unfold calculate_accuracy npBroadcastEq
  rw [if_pos (by omega)]
  simp only [hcount]
  rw [if_pos hNpos, hacc, if_pos (by omega)]
  have : ((m.tp : ℚ) + m.tn + m.fp + m.fn) = (labels.length : ℚ) := by
    exact_mod_cast congrArg (Nat.cast : ℕ → ℚ) hsum
  rw [this]
  push_cast
  ring_nf

/-- C9 (witness): an imperfect-classifier run of the refinement. -/
theorem calculate_accuracy_refines_metrics_witness :
    calculate_accuracy [6/10, 6/10] [1, 0] (1/2) = .ok
      ({ accuracy := 1/2, precision := 1/2, recall' := 1, specificity := 0,
         f1_score := 2/3, fpr := 1, fnr := 0,
         tp := 1, tn := 0, fp := 1, fn := 0 } : Metrics).accuracy :=
  calculate_accuracy_refines_metrics [6/10, 6/10] [1, 0] (1/2) _
    (by with_unfolding_all rfl)

/-- C10: binarization is idempotent — re-binarizing the 0/1 decision
vector at threshold 0.5 reproduces it, and `calculate_metrics` on the
decision vector at threshold 0.5 coincides (errors included) with
`calculate_metrics` on the original scores at the original threshold. -/
theorem binarize_idempotent (predictions : List ℚ) (labels : List ℕ) (threshold : ℚ) :
    binarize ((binarize predictions threshold).map (Nat.cast : ℕ → ℚ)) (1/2)
      = binarize predictions threshold ∧
    calculate_metrics ((binarize predictions threshold).map (Nat.cast : ℕ → ℚ))
        labels (1/2)
      = calculate_metrics predictions labels threshold := by
  have key : binarize ((binarize predictions threshold).map (Nat.cast : ℕ → ℚ)) (1/2)
      = binarize predictions threshold := by
    induction predictions with
    | nil => rfl
    | cons s ss ih =>
      simp only [binarize, List.map_cons] at ih ⊢
      rw [ih]
      by_cases h : threshold ≤ s
      · simp only [h, if_true, Nat.cast_one]
        norm_num
      · simp only [h, if_false, Nat.cast_zero]
        norm_num
  refine ⟨key, ?_⟩
  unfold calculate_metrics
  rw [key]

/-! ### Lemmas about `np.nanargmin` and the EER search -/

theorem nanArgminVal_eq_none_iff {l : List (Option ℚ)} :
    nanArgminVal l = none ↔ ∀ x ∈ l, x = none := by
  induction l with
  | nil => simp [nanArgminVal]
  | cons x rest ih =>
    cases x with
    | none =>
      simp only [nanArgminVal, Option.map_eq_none', List.mem_cons]
      constructor
      · intro h y hy
        rcases hy with rfl | hy
        · rfl
        · exact ih.mp h y hy
      · intro h
        exact ih.mpr (fun y hy => h y (Or.inr hy))
    | some v =>
      constructor
      · intro h
        exfalso
        simp only [nanArgminVal] at h
        rcases hrest : nanArgminVal rest with _ | p
        · rw [hrest] at h; simp at h
        · rw [hrest] at h
          rcases p with ⟨j, w⟩
          by_cases hw : w < v <;> simp [hw] at h
      · intro h
        exact absurd (h (some v) (List.mem_cons_self _ _)) (by simp)

theorem getD_some_mem {l : List (Option ℚ)} {j : ℕ} {w : ℚ}
    (h : l.getD j none = some w) : some w ∈ l := by
  by_cases hj : j < l.length
  · rw [List.getD_eq_getElem l none hj] at h
    exact h ▸ List.getElem_mem hj
  · rw [List.getD_eq_default l none (by omega)] at h
    exact absurd h (by simp)

/-- Characterisation of `np.nanargmin`: it returns a position holding the
least non-NaN value, and every strictly earlier position holds either NaN
or a strictly larger value (stable/first argmin). -/
theorem nanArgminVal_spec {l : List (Option ℚ)} {i : ℕ} {v : ℚ}
    (h : nanArgminVal l = some (i, v)) :
    i < l.length ∧ l.getD i none = some v ∧
    (∀ j w, l.getD j none = some w → v ≤ w) ∧
    (∀ j, j < i → ∀ w, l.getD j none = some w → v < w) := by
  induction l generalizing i v with
  | nil => simp [nanArgminVal] at h
  | cons x rest ih =>
    cases x with
    | none =>
      simp only [nanArgminVal, Option.map_eq_some'] at h
      obtain ⟨⟨i', v'⟩, hrest, hpair⟩ := h
      cases hpair
      obtain ⟨hlen, hget, hmin, hstrict⟩ := ih hrest
      refine ⟨by simpa using hlen, by simpa using hget, ?_, ?_⟩
      · intro j w hj
        cases j with
        | zero => simp at hj
        | succ j' => exact hmin j' w (by simpa using hj)
      · intro j hj w hjw
        cases j with
        | zero => simp at hjw
        | succ j' => exact hstrict j' (by omega) w (by simpa using hjw)
    | some v0 =>
      simp only [nanArgminVal] at h
      rcases hrest : nanArgminVal rest with _ | ⟨j0, w0⟩
      · rw [hrest] at h
        simp only [Option.some.injEq, Prod.mk.injEq] at h
        obtain ⟨rfl, rfl⟩ := h
        refine ⟨by simp, by simp, ?_, ?_⟩
        · intro j w hj
          cases j with
          | zero =>
            simp only [List.getD_cons_zero, Option.some.injEq] at hj
            exact le_of_eq hj
          | succ j' =>
            have hw : rest.getD j' none = some w := by simpa using hj
            have hall := nanArgminVal_eq_none_iff.mp hrest
            exact absurd (hall _ (getD_some_mem hw)) (by simp)
        · intro j hj w hjw
          exact absurd hj (Nat.not_lt_zero j)
      · rw [hrest] at h
        have h' : (if w0 < v0 then some (j0 + 1, w0) else some (0, v0))
            = some (i, v) := h
        by_cases hlt : w0 < v0
        · rw [if_pos hlt] at h'
          simp only [Option.some.injEq, Prod.mk.injEq] at h'
          obtain ⟨rfl, rfl⟩ := h' 
          obtain ⟨hlen, hget, hmin, hstrict⟩ := ih hrest
          refine ⟨by simpa using hlen, by simpa using hget, ?_, ?_⟩
          · intro j w hj
            cases j with
            | zero =>
              simp only [List.getD_cons_zero, Option.some.injEq] at hj
              rw [← hj]
              exact le_of_lt hlt
            | succ j' => exact hmin j' w (by simpa using hj)
          · intro j hj w hjw
            cases j with
            | zero =>
              simp only [List.getD_cons_zero, Option.some.injEq] at hjw
              rw [← hjw]
              exact hlt
            | succ j' => exact hstrict j' (by omega) w (by simpa using hjw)
        · rw [if_neg hlt] at h'
          simp only [Option.some.injEq, Prod.mk.injEq] at h'
          obtain ⟨rfl, rfl⟩ := h'
          obtain ⟨hlen, hget, hmin, hstrict⟩ := ih hrest
          refine ⟨by simp, by simp, ?_, ?_⟩
          · intro j w hj
            cases j with
            | zero =>
              simp only [List.getD_cons_zero, Option.some.injEq] at hj
              exact le_of_eq hj
            | succ j' =>
              have hw0 : w0 ≤ w := hmin j' w (by simpa using hj)
              have hv0 : v0 ≤ w0 := le_of_not_lt hlt
              linarith
          · intro j hj w hjw
            exact absurd hj (Nat.not_lt_zero j)

/-- Reading an entry of `np.abs(fpr - fnr)`: a non-NaN entry comes from
non-NaN `fpr` and `fnr` entries at the same index. -/
theorem eerDiffs_getD_some {fpr fnr : List (Option ℚ)} {i : ℕ} {v : ℚ}
    (h : (eerDiffs fpr fnr).getD i none = some v) :
    ∃ a b, fpr.getD i none = some a ∧ fnr.getD i none = some b ∧ v = |a - b| := by
  have hi : i < (eerDiffs fpr fnr).length := by
    by_contra hge
    rw [List.getD_eq_default _ _ (by omega)] at h
    exact absurd h (by simp)
  have hzip : i < (fpr.zip fnr).length := by
    simpa [eerDiffs] using hi
  have hi1 : i < fpr.length := by
    rw [List.length_zip] at hzip; omega
  have hi2 : i < fnr.length := by
    rw [List.length_zip] at hzip; omega
  rw [List.getD_eq_getElem _ _ hi] at h
  have : (eerDiffs fpr fnr)[i] =
      (match fpr[i], fnr[i] with
       | some a, some b => some |a - b|
       | _, _ => none) := by
    simp [eerDiffs, List.getElem_zip]
  rw [this] at h
  rcases ha : fpr[i] with _ | a <;> rcases hb : fnr[i] with _ | b <;>
    rw [ha, hb] at h <;> simp at h
  exact ⟨a, b, by rw [List.getD_eq_getElem _ _ hi1, ha],
    by rw [List.getD_eq_getElem _ _ hi2, hb], h.symm⟩

/-- Inversion of a successful `calculate_eer`: the chosen index is a
stable NaN-ignoring argmin of `|fpr − fnr|` and the returned values read
off that index. -/
theorem calculate_eer_ok_parts
    {predictions : List ℚ} {labels : List ℕ} {e : ℚ} {th : Option ℚ}
    (h : calculate_eer predictions labels = .ok (e, th)) :
    ∃ i a b,
      i < (eerDiffs (rocFpr predictions labels)
        (eerFnr predictions labels)).length ∧
      (rocFpr predictions labels).getD i none = some a ∧
      (eerFnr predictions labels).getD i none = some b ∧
      e = (a + b) / 2 ∧
      th = (rocThresholds predictions labels).getD i none ∧
      (eerDiffs (rocFpr predictions labels) (eerFnr predictions labels)).getD
        i none = some |a - b| ∧
      (∀ j w, (eerDiffs (rocFpr predictions labels)
        (eerFnr predictions labels)).getD j none = some w → |a - b| ≤ w) ∧
      (∀ j, j < i → ∀ w, (eerDiffs (rocFpr predictions labels)
        (eerFnr predictions labels)).getD j none = some w → |a - b| < w) := by
  unfold calculate_eer at h
  split at h
  · exact absurd h (by simp)
  · split at h
    · exact absurd h (by simp)
    · rename_i iv hargmin
      obtain ⟨i, v⟩ := iv
      split at h
      · rename_i a b hfa hfb
        simp only [Except.ok.injEq, Prod.mk.injEq] at h
        obtain ⟨he, hth⟩ := h
        obtain ⟨hlen, hget, hmin, hstrict⟩ := nanArgminVal_spec hargmin
        obtain ⟨a', b', hfa', hfb', hv⟩ := eerDiffs_getD_some hget
        rw [hfa] at hfa'
        rw [hfb] at hfb'
        simp only [Option.some.injEq] at hfa' hfb'
        subst hfa'
        subst hfb'
        subst hv
        exact ⟨i, a, b, hlen, hfa, hfb, he.symm, hth.symm, hget, hmin, hstrict⟩
      · exact absurd h (by simp)

/-- C2: a successful `calculate_eer` selects, over the NaN-masked
pointwise distances `|fpr − fnr|` of the ROC curve (with `fnr = 1 − tpr`),
the first index attaining the minimum — every index holds a larger-or-equal
distance and every earlier index a strictly larger one or NaN — and
returns `((fpr[i] + fnr[i]) / 2, thresholds[i])` at that index. -/
theorem calculate_eer_stable_argmin
    (predictions : List ℚ) (labels : List ℕ) (e : ℚ) (th : Option ℚ)
    (h : calculate_eer predictions labels = .ok (e, th)) :
    ∃ i a b,
      (rocFpr predictions labels).getD i none = some a ∧
      (eerFnr predictions labels).getD i none = some b ∧
      e = (a + b) / 2 ∧
      th = (rocThresholds predictions labels).getD i none ∧
      (eerDiffs (rocFpr predictions labels) (eerFnr predictions labels)).getD
        i none = some |a - b| ∧
      (∀ j w, (eerDiffs (rocFpr predictions labels)
        (eerFnr predictions labels)).getD j none = some w → |a - b| ≤ w) ∧
      (∀ j, j < i → ∀ w, (eerDiffs (rocFpr predictions labels)
        (eerFnr predictions labels)).getD j none = some w → |a - b| < w) := by
  obtain ⟨i, a, b, _, hfa, hfb, he, hth, hget, hmin, hstrict⟩ :=
    calculate_eer_ok_parts h
  exact ⟨i, a, b, hfa, hfb, he, hth, hget, hmin, hstrict⟩

/-- C2 (witness): the perfect classifier `scores=[0.9,0.1]`,
`labels=[1,0]` returns `(0, 0.9)` and the theorem instantiates at it. -/
theorem calculate_eer_stable_argmin_witness :
    ∃ i a b,
      (rocFpr [9/10, 1/10] [1, 0]).getD i none = some a ∧
      (eerFnr [9/10, 1/10] [1, 0]).getD i none = some b ∧
      (0 : ℚ) = (a + b) / 2 ∧
      (some (9/10) : Option ℚ) = (rocThresholds [9/10, 1/10] [1, 0]).getD i none ∧
      (eerDiffs (rocFpr [9/10, 1/10] [1, 0]) (eerFnr [9/10, 1/10] [1, 0])).getD
        i none = some |a - b| ∧
      (∀ j w, (eerDiffs (rocFpr [9/10, 1/10] [1, 0])
        (eerFnr [9/10, 1/10] [1, 0])).getD j none = some w → |a - b| ≤ w) ∧
      (∀ j, j < i → ∀ w, (eerDiffs (rocFpr [9/10, 1/10] [1, 0])
        (eerFnr [9/10, 1/10] [1, 0])).getD j none = some w → |a - b| < w) :=
  calculate_eer_stable_argmin [9/10, 1/10] [1, 0] 0 (some (9/10))
    (by with_unfolding_all rfl)

/-! ### Generic list helpers for the ROC monotonicity arguments -/

theorem getLastD_append_single {α} (l : List α) (a d : α) :
    (l ++ [a]).getLastD d = a := by
  induction l generalizing d with
  | nil => rfl
  | cons x xs ih => rw [List.cons_append, List.getLastD_cons, ih]

theorem getLastD_mem {α} {l : List α} (hl : l ≠ []) (d : α) :
    l.getLastD d ∈ l := by
  induction l generalizing d with
  | nil => exact absurd rfl hl
  | cons x xs ih =>
    rw [List.getLastD_cons]
    cases hxs : xs with
    | nil => simp
    | cons y ys => exact List.mem_cons_of_mem x (hxs ▸ ih (by simp [hxs]) x)

theorem getD_length_sub_one {α} {l : List α} (hl : l ≠ []) (d d' : α) :
    l.getD (l.length - 1) d = l.getLastD d' := by
  induction l generalizing d d' with
  | nil => exact absurd rfl hl
  | cons x xs ih =>
    cases xs with
    | nil => rfl
    | cons y ys =>
      have h1 : (x :: y :: ys).length - 1 = ((y :: ys).length - 1) + 1 := by
        simp
      rw [h1, List.getD_cons_succ, List.getLastD_cons]
      exact ih (by simp) d x

theorem pairwise_le_map_mono (idxs : List ℕ) (f : ℕ → ℕ)
    (hpw : idxs.Pairwise (· < ·))
    (hmono : ∀ a ∈ idxs, ∀ b ∈ idxs, a < b → f a ≤ f b) :
    (idxs.map f).Pairwise (· ≤ ·) := by
  induction idxs with
  | nil => simp
  | cons i rest ih =>
    rw [List.map_cons, List.pairwise_cons]
    rw [List.pairwise_cons] at hpw
    constructor
    · intro y hy
      obtain ⟨j, hj, rfl⟩ := List.mem_map.mp hy
      exact hmono i (by simp) j (by simp [hj]) (hpw.1 j hj)
    · exact ih hpw.2
        (fun a ha b hb hab => hmono a (by simp [ha]) b (by simp [hb]) hab)

theorem pairwise_le_zip_tail {l : List ℕ} (h : l.Pairwise (· ≤ ·)) :
    ∀ p ∈ l.zip l.tail, p.1 ≤ p.2 := by
  induction l with
  | nil => simp
  | cons a rest ih =>
    intro p hp
    cases rest with
    | nil => simp at hp
    | cons b rest' =>
      rw [List.pairwise_cons] at h
      simp only [List.tail_cons, List.zip_cons_cons, List.mem_cons] at hp
      rcases hp with rfl | hp
      · exact h.1 b (by simp)
      · exact ih h.2 p (by simpa using hp)

theorem pairwise_le_entry_le_last {l : List ℕ} (h : l.Pairwise (· ≤ ·)) :
    ∀ d, ∀ x ∈ l, x ≤ l.getLastD d := by
  induction l with
  | nil => simp
  | cons a rest ih =>
    intro d x hx
    rw [List.pairwise_cons] at h
    rw [List.getLastD_cons]
    rcases List.mem_cons.mp hx with rfl | hx
    · by_cases hrest : rest = []
      · subst hrest; simp
      · exact h.1 _ (getLastD_mem hrest x)
    · exact ih h.2 a x hx

theorem filter_range_last {m : ℕ} {p : ℕ → Bool} (hm : 0 < m)
    (hp : p (m - 1) = true) :
    ∃ pre, (List.range m).filter p = pre ++ [m - 1] := by
  obtain ⟨m', rfl⟩ : ∃ m', m = m' + 1 := ⟨m - 1, by omega⟩
  rw [List.range_succ, List.filter_append]
  refine ⟨(List.range m').filter p, ?_⟩
  simp only [Nat.add_sub_cancel] at hp ⊢
  rw [List.filter_cons, if_pos (by simp [hp])]
  rfl

/-! ### Monotonicity of the ROC cumulative counts -/

theorem rocLabels_le_one {y_true : List ℕ} {y_score : List ℚ}
    (hle : ∀ y ∈ y_true, y ≤ 1) :
    ∀ y ∈ rocLabels y_true y_score, y ≤ 1 := by
  intro y hy
  obtain ⟨p, hp, rfl⟩ := List.mem_map.mp hy
  have hp' : p ∈ y_score.zip y_true := by
    simpa [rocPoints, sortDescPairs, List.mem_insertionSort] using hp
  exact hle _ (List.of_mem_zip hp').2

theorem cumPos_le_succ (ys : List ℕ) (m : ℕ) :
    cumPos ys m ≤ cumPos ys (m + 1) := by
  unfold cumPos
  rw [List.take_succ, List.sum_append]
  omega

theorem cumPos_succ_le {ys : List ℕ} (hle : ∀ y ∈ ys, y ≤ 1) (m : ℕ) :
    cumPos ys (m + 1) ≤ cumPos ys m + 1 := by
  unfold cumPos
  rw [List.take_succ, List.sum_append]
  rcases hm : ys[m]? with _ | y
  · simp
  · have hmem : y ∈ ys := List.mem_iff_getElem?.mpr ⟨m, hm⟩
    simp only [Option.toList_some, List.sum_cons, List.sum_nil]
    have := hle y hmem
    omega

theorem cumPos_mono (ys : List ℕ) {m n : ℕ} (h : m ≤ n) :
    cumPos ys m ≤ cumPos ys n := by
  induction n with
  | zero =>
    have : m = 0 := by omega
    subst this
    exact le_refl _
  | succ n' ih =>
    by_cases hm : m = n' + 1
    · subst hm; exact le_refl _
    · exact (ih (by omega)).trans (cumPos_le_succ ys n')

/-- `i ↦ fps[i] = (i+1) - tps[i]` is monotone when labels are 0/1. -/
theorem fps_fun_mono {ys : List ℕ} (hle : ∀ y ∈ ys, y ≤ 1) {i j : ℕ}
    (hij : i ≤ j) :
    i + 1 - cumPos ys (i + 1) ≤ j + 1 - cumPos ys (j + 1) := by
  induction j with
  | zero =>
    have : i = 0 := by omega
    subst this
    exact le_refl _
  | succ j' ih =>
    by_cases hj : i = j' + 1
    · subst hj; exact le_refl _
    · have h1 := ih (by omega)
      have h2 := cumPos_succ_le hle (j' + 1)
      omega

theorem thresholdIdxs_pairwise (y_true : List ℕ) (y_score : List ℚ) :
    (thresholdIdxs y_true y_score).Pairwise (· < ·) := by
  unfold thresholdIdxs
  exact (List.pairwise_lt_range _).filter _

theorem thresholdIdxs_mem_lt {y_true : List ℕ} {y_score : List ℚ} {i : ℕ}
    (h : i ∈ thresholdIdxs y_true y_score) :
    i < (rocScores y_true y_score).length := by
  unfold thresholdIdxs at h
  exact List.mem_range.mp (List.mem_filter.mp h).1

theorem thresholdIdxs_ne_nil {y_true : List ℕ} {y_score : List ℚ}
    (hn : 0 < (rocScores y_true y_score).length) :
    thresholdIdxs y_true y_score ≠ [] := by
  have hmem : (rocScores y_true y_score).length - 1 ∈ thresholdIdxs y_true y_score := by
    unfold thresholdIdxs
    refine List.mem_filter.mpr ⟨List.mem_range.mpr (by omega), ?_⟩
    have : (rocScores y_true y_score).length - 1 + 1
        = (rocScores y_true y_score).length := by omega
    simp [this]
  exact List.ne_nil_of_mem hmem

theorem fpsOf_pairwise {y_true : List ℕ} {y_score : List ℚ}
    (hle : ∀ y ∈ y_true, y ≤ 1) :
    (fpsOf y_true y_score).Pairwise (· ≤ ·) :=
  pairwise_le_map_mono _ _ (thresholdIdxs_pairwise _ _)
    (fun _ _ _ _ hab =>
      fps_fun_mono (rocLabels_le_one hle) (le_of_lt hab))

theorem tpsOf_pairwise (y_true : List ℕ) (y_score : List ℚ) :
    (tpsOf y_true y_score).Pairwise (· ≤ ·) :=
  pairwise_le_map_mono _ _ (thresholdIdxs_pairwise _ _)
    (fun _ _ _ _ hab => cumPos_mono _ (by omega))

/-! ### `drop_intermediate` preserves the facts the claims need -/

theorem optimalIdxs_pairwise (fps tps : List ℕ) :
    (optimalIdxs fps tps).Pairwise (· < ·) := by
  unfold optimalIdxs
  exact (List.pairwise_lt_range _).filter _

theorem optimalIdxs_mem_lt {fps tps : List ℕ} {j : ℕ}
    (h : j ∈ optimalIdxs fps tps) : j < fps.length := by
  unfold optimalIdxs at h
  exact List.mem_range.mp (List.mem_filter.mp h).1

theorem dropIntermediate_fst_mem {fps tps : List ℕ} {ths : List ℚ} :
    ∀ x ∈ (dropIntermediate fps tps ths).1, x ∈ fps := by
  unfold dropIntermediate
  split
  · intro x hx
    simp only [List.mem_map] at hx
    obtain ⟨j, hj, rfl⟩ := hx
    have hjm : j < fps.length := optimalIdxs_mem_lt hj
    rw [List.getD_eq_getElem _ _ hjm]
    exact List.getElem_mem hjm
  · intro x hx
    exact hx

theorem dropIntermediate_snd_mem {fps tps : List ℕ} {ths : List ℚ}
    (hlen : tps.length = fps.length) :
    ∀ x ∈ (dropIntermediate fps tps ths).2.1, x ∈ tps := by
  unfold dropIntermediate
  split
  · intro x hx
    simp only [List.mem_map] at hx
    obtain ⟨j, hj, rfl⟩ := hx
    have hjm : j < tps.length := by
      have := optimalIdxs_mem_lt hj
      omega
    rw [List.getD_eq_getElem _ _ hjm]
    exact List.getElem_mem hjm
  · intro x hx
    exact hx

theorem dropIntermediate_fst_ne_nil {fps tps : List ℕ} {ths : List ℚ}
    (h : fps ≠ []) : (dropIntermediate fps tps ths).1 ≠ [] := by
  unfold dropIntermediate
  split
  · rename_i hm
    have h0 : 0 ∈ optimalIdxs fps tps := by
      unfold optimalIdxs
      exact List.mem_filter.mpr ⟨List.mem_range.mpr (by omega), by simp [keepIdx]⟩
    simp only [ne_eq, List.map_eq_nil_iff]
    exact List.ne_nil_of_mem h0
  · exact h

theorem dropIntermediate_fst_pairwise {fps tps : List ℕ} {ths : List ℚ}
    (h : fps.Pairwise (· ≤ ·)) :
    (dropIntermediate fps tps ths).1.Pairwise (· ≤ ·) := by
  unfold dropIntermediate
  split
  · refine pairwise_le_map_mono _ _ (optimalIdxs_pairwise fps tps) ?_
    intro a ha b hb hab
    have haa : a < fps.length := optimalIdxs_mem_lt ha
    have hbb : b < fps.length := optimalIdxs_mem_lt hb
    rw [List.getD_eq_getElem _ _ haa, List.getD_eq_getElem _ _ hbb]
    have := List.pairwise_iff_get.mp h ⟨a, haa⟩ ⟨b, hbb⟩ hab
    simpa using this
  · exact h

theorem dropIntermediate_snd_pairwise {fps tps : List ℕ} {ths : List ℚ}
    (hlen : tps.length = fps.length) (h : tps.Pairwise (· ≤ ·)) :
    (dropIntermediate fps tps ths).2.1.Pairwise (· ≤ ·) := by
  unfold dropIntermediate
  split
  · refine pairwise_le_map_mono _ _ (optimalIdxs_pairwise fps tps) ?_
    intro a ha b hb hab
    have haa : a < tps.length := by have := optimalIdxs_mem_lt ha; omega
    have hbb : b < tps.length := by have := optimalIdxs_mem_lt hb; omega
    rw [List.getD_eq_getElem _ _ haa, List.getD_eq_getElem _ _ hbb]
    have := List.pairwise_iff_get.mp h ⟨a, haa⟩ ⟨b, hbb⟩ hab
    simpa using this
  · exact h

theorem dropIntermediate_lengths {fps tps : List ℕ} {ths : List ℚ}
    (h1 : tps.length = fps.length) (h2 : ths.length = fps.length) :
    (dropIntermediate fps tps ths).2.1.length
        = (dropIntermediate fps tps ths).1.length ∧
    (dropIntermediate fps tps ths).2.2.length
        = (dropIntermediate fps tps ths).1.length := by
  unfold dropIntermediate
  split
  · simp
  · exact ⟨h1, h2⟩

/-! ### The prepended ROC arrays -/

theorem rocFps_pairwise {y_true : List ℕ} {y_score : List ℚ}
    (hle : ∀ y ∈ y_true, y ≤ 1) :
    (rocFps y_true y_score).Pairwise (· ≤ ·) := by
  unfold rocFps
  rw [List.pairwise_cons]
  exact ⟨fun b _ => Nat.zero_le b,
    dropIntermediate_fst_pairwise (fpsOf_pairwise hle)⟩

theorem rocTps_pairwise (y_true : List ℕ) (y_score : List ℚ) :
    (rocTps y_true y_score).Pairwise (· ≤ ·) := by
  unfold rocTps
  rw [List.pairwise_cons]
  refine ⟨fun b _ => Nat.zero_le b, ?_⟩
  exact dropIntermediate_snd_pairwise (by simp [tpsOf, fpsOf])
    (tpsOf_pairwise _ _)

theorem roc_lengths (y_true : List ℕ) (y_score : List ℚ) :
    (rocTps y_true y_score).length = (rocFps y_true y_score).length ∧
    (rocThs y_true y_score).length = (rocFps y_true y_score).length := by
  have h1 : (tpsOf y_true y_score).length = (fpsOf y_true y_score).length := by
    simp [tpsOf, fpsOf]
  have h2 : (thsOf y_true y_score).length = (fpsOf y_true y_score).length := by
    simp [thsOf, fpsOf]
  obtain ⟨a, b⟩ := @dropIntermediate_lengths (fpsOf y_true y_score)
    (tpsOf y_true y_score) (thsOf y_true y_score) h1 h2
  unfold rocFps rocTps rocThs
  constructor
  · simp [a]
  · simp [b]

theorem rocFps_length_pos {y_true : List ℕ} {y_score : List ℚ}
    (hn : 0 < (rocScores y_true y_score).length) :
    2 ≤ (rocFps y_true y_score).length := by
  unfold rocFps
  have hne : (fpsOf y_true y_score) ≠ [] := by
    unfold fpsOf
    simp only [ne_eq, List.map_eq_nil_iff]
    exact thresholdIdxs_ne_nil hn
  have := @dropIntermediate_fst_ne_nil (fpsOf y_true y_score)
    (tpsOf y_true y_score) (thsOf y_true y_score) hne
  have hlen := List.length_pos.mpr this
  simp only [List.length_cons]
  omega

/-! ### Bounds on the ROC rates -/

theorem rocFpr_getD_bounds {predictions : List ℚ} {labels : List ℕ} {i : ℕ}
    {a : ℚ} (hle : ∀ y ∈ labels, y ≤ 1)
    (h : (rocFpr predictions labels).getD i none = some a) :
    0 ≤ a ∧ a ≤ 1 := by
  have hfpr : rocFpr predictions labels
      = (rocFps labels predictions).map (fun (x : ℕ) =>
          if (rocFps labels predictions).getLastD 0 = 0 then none
          else some ((x : ℚ) / ((rocFps labels predictions).getLastD 0 : ℚ))) := rfl
  rw [hfpr] at h
  have hi : i < (rocFps labels predictions).length := by
    by_contra hge
    rw [List.getD_eq_default _ _ (by simp; omega)] at h
    exact absurd h (by simp)
  rw [List.getD_eq_getElem _ _ (by simpa using hi), List.getElem_map] at h
  by_cases hF0 : (rocFps labels predictions).getLastD 0 = 0
  · rw [if_pos hF0] at h
    exact absurd h (by simp)
  · rw [if_neg hF0] at h
    simp only [Option.some.injEq] at h
    subst h
    have hxle : (rocFps labels predictions)[i]
        ≤ (rocFps labels predictions).getLastD 0 :=
      pairwise_le_entry_le_last (rocFps_pairwise hle) 0 _ (List.getElem_mem hi)
    have hFpos : (0 : ℚ) < ((rocFps labels predictions).getLastD 0 : ℚ) := by
      exact_mod_cast Nat.pos_of_ne_zero hF0
    constructor
    · positivity
    · rw [div_le_one hFpos]
      exact_mod_cast hxle

theorem rocTpr_getD_bounds {predictions : List ℚ} {labels : List ℕ} {i : ℕ}
    {t : ℚ} (h : (rocTpr predictions labels).getD i none = some t) :
    0 ≤ t ∧ t ≤ 1 := by
  have htpr : rocTpr predictions labels
      = (rocTps labels predictions).map (fun (x : ℕ) =>
          if (rocTps labels predictions).getLastD 0 = 0 then none
          else some ((x : ℚ) / ((rocTps labels predictions).getLastD 0 : ℚ))) := rfl
  rw [htpr] at h
  have hi : i < (rocTps labels predictions).length := by
    by_contra hge
    rw [List.getD_eq_default _ _ (by simp; omega)] at h
    exact absurd h (by simp)
  rw [List.getD_eq_getElem _ _ (by simpa using hi), List.getElem_map] at h
  by_cases hT0 : (rocTps labels predictions).getLastD 0 = 0
  · rw [if_pos hT0] at h
    exact absurd h (by simp)
  · rw [if_neg hT0] at h
    simp only [Option.some.injEq] at h
    subst h
    have hxle : (rocTps labels predictions)[i]
        ≤ (rocTps labels predictions).getLastD 0 :=
      pairwise_le_entry_le_last (rocTps_pairwise _ _) 0 _ (List.getElem_mem hi)
    have hTpos : (0 : ℚ) < ((rocTps labels predictions).getLastD 0 : ℚ) := by
      exact_mod_cast Nat.pos_of_ne_zero hT0
    constructor
    · positivity
    · rw [div_le_one hTpos]
      exact_mod_cast hxle

theorem eerFnr_getD_bounds {predictions : List ℚ} {labels : List ℕ} {i : ℕ}
    {b : ℚ} (h : (eerFnr predictions labels).getD i none = some b) :
    0 ≤ b ∧ b ≤ 1 := by
  unfold eerFnr at h
  have hi : i < (rocTpr predictions labels).length := by
    by_contra hge
    rw [List.getD_eq_default _ _ (by simp; omega)] at h
    exact absurd h (by simp)
  rw [List.getD_eq_getElem _ _ (by simpa using hi), List.getElem_map] at h
  rcases ht : (rocTpr predictions labels)[i] with _ | t
  · rw [ht] at h
    exact absurd h (by simp)
  · rw [ht] at h
    simp only [Option.map_some', Option.some.injEq] at h
    have hbounds : 0 ≤ t ∧ t ≤ 1 :=
      rocTpr_getD_bounds (by rw [List.getD_eq_getElem _ _ hi, ht])
    constructor
    · rw [← h]; linarith [hbounds.2]
    · rw [← h]; linarith [hbounds.1]

theorem eer_list_lengths (predictions : List ℚ) (labels : List ℕ) :
    (eerDiffs (rocFpr predictions labels) (eerFnr predictions labels)).length
      = (rocThresholds predictions labels).length := by
  obtain ⟨h1, h2⟩ := roc_lengths labels predictions
  simp only [eerDiffs, eerFnr, rocFpr, rocTpr, rocThresholds, roc_curve,
    List.length_map, List.length_zip]
  omega

/-- C3 (counterexample): for the anti-classifier `scores=[0.9,0.1]`,
`labels=[0,1]` the returned eer is 1, outside `[0, 0.5]`. -/
theorem calculate_eer_above_half :
    calculate_eer [9/10, 1/10] [0, 1] = .ok (1, some (9/10)) ∧
    ¬((1 : ℚ) ≤ 1/2) := by
  constructor
  · with_unfolding_all rfl
  · norm_num

/-- C3 (amended): for 0/1 labels, a returned eer lies within `[0, 1]` (the
claimed upper bound 0.5 is wrong — an anti-classifier reaches 1) and the
returned threshold is one of the thresholds of the ROC sweep. -/
theorem calculate_eer_range
    (predictions : List ℚ) (labels : List ℕ) (e : ℚ) (th : Option ℚ)
    (hle : ∀ y ∈ labels, y ≤ 1)
    (h : calculate_eer predictions labels = .ok (e, th)) :
    0 ≤ e ∧ e ≤ 1 ∧ th ∈ rocThresholds predictions labels := by
  obtain ⟨i, a, b, hlen, hfa, hfb, he, hth, _, _, _⟩ :=
    calculate_eer_ok_parts h
  have ha := rocFpr_getD_bounds hle hfa
  have hb := eerFnr_getD_bounds hfb
  subst he
  refine ⟨by linarith [ha.1, hb.1], by linarith [ha.2, hb.2], ?_⟩
  have hi : i < (rocThresholds predictions labels).length := by
    rw [← eer_list_lengths predictions labels]
    exact hlen
  rw [hth, List.getD_eq_getElem _ _ hi]
  exact List.getElem_mem hi

/-- C3 (witness). -/
theorem calculate_eer_range_witness :
    (0 : ℚ) ≤ 0 ∧ (0 : ℚ) ≤ 1 ∧
    (some (9/10) : Option ℚ) ∈ rocThresholds [9/10, 1/10] [1, 0] :=
  calculate_eer_range [9/10, 1/10] [1, 0] 0 (some (9/10))
    (by decide) (by with_unfolding_all rfl)

/-! ### Degenerate (one-class) label vectors -/

theorem rocLabels_subset {y_true : List ℕ} {y_score : List ℚ} :
    ∀ y ∈ rocLabels y_true y_score, y ∈ y_true := by
  intro y hy
  obtain ⟨p, hp, rfl⟩ := List.mem_map.mp hy
  have hp' : p ∈ y_score.zip y_true := by
    simpa [rocPoints, sortDescPairs, List.mem_insertionSort] using hp
  exact (List.of_mem_zip hp').2

theorem sum_all_one {l : List ℕ} (h : ∀ y ∈ l, y = 1) : l.sum = l.length := by
  induction l with
  | nil => rfl
  | cons x xs ih =>
    rw [List.sum_cons, List.length_cons, h x (by simp),
      ih (fun y hy => h y (by simp [hy]))]
    omega

theorem sum_all_zero {l : List ℕ} (h : ∀ y ∈ l, y = 0) : l.sum = 0 := by
  induction l with
  | nil => rfl
  | cons x xs ih =>
    rw [List.sum_cons, h x (by simp), ih (fun y hy => h y (by simp [hy]))]

theorem rocLabels_length (y_true : List ℕ) (y_score : List ℚ) :
    (rocLabels y_true y_score).length = (rocScores y_true y_score).length := by
  simp [rocLabels, rocScores]

theorem fpsOf_all_zero {y_true : List ℕ} {y_score : List ℚ}
    (hone : ∀ y ∈ y_true, y = 1) :
    ∀ x ∈ fpsOf y_true y_score, x = 0 := by
  intro x hx
  obtain ⟨i, hi, rfl⟩ := List.mem_map.mp hx
  have hin : i < (rocScores y_true y_score).length := thresholdIdxs_mem_lt hi
  have hcum : cumPos (rocLabels y_true y_score) (i + 1) = i + 1 := by
    unfold cumPos
    rw [sum_all_one (fun y hy =>
      hone y (rocLabels_subset y (List.take_subset _ _ hy)))]
    rw [List.length_take]
    have := rocLabels_length y_true y_score
    omega
  omega

theorem tpsOf_all_zero {y_true : List ℕ} {y_score : List ℚ}
    (hzero : ∀ y ∈ y_true, y = 0) :
    ∀ x ∈ tpsOf y_true y_score, x = 0 := by
  intro x hx
  obtain ⟨i, hi, rfl⟩ := List.mem_map.mp hx
  unfold cumPos
  exact sum_all_zero (fun y hy =>
    hzero y (rocLabels_subset y (List.take_subset _ _ hy)))

theorem rocFps_all_zero {y_true : List ℕ} {y_score : List ℚ}
    (hone : ∀ y ∈ y_true, y = 1) :
    ∀ x ∈ rocFps y_true y_score, x = 0 := by
  intro x hx
  unfold rocFps at hx
  rcases List.mem_cons.mp hx with rfl | hx
  · rfl
  · exact fpsOf_all_zero hone x (dropIntermediate_fst_mem x hx)

theorem rocTps_all_zero {y_true : List ℕ} {y_score : List ℚ}
    (hzero : ∀ y ∈ y_true, y = 0) :
    ∀ x ∈ rocTps y_true y_score, x = 0 := by
  intro x hx
  unfold rocTps at hx
  rcases List.mem_cons.mp hx with rfl | hx
  · rfl
  · exact tpsOf_all_zero hzero x
      (dropIntermediate_snd_mem (by simp [tpsOf, fpsOf]) x hx)

theorem rocFps_getLastD_zero {y_true : List ℕ} {y_score : List ℚ}
    (hone : ∀ y ∈ y_true, y = 1) :
    (rocFps y_true y_score).getLastD 0 = 0 :=
  rocFps_all_zero hone _ (getLastD_mem (by unfold rocFps; simp) 0)

theorem rocTps_getLastD_zero {y_true : List ℕ} {y_score : List ℚ}
    (hzero : ∀ y ∈ y_true, y = 0) :
    (rocTps y_true y_score).getLastD 0 = 0 :=
  rocTps_all_zero hzero _ (getLastD_mem (by unfold rocTps; simp) 0)

theorem rocFpr_all_none {predictions : List ℚ} {labels : List ℕ}
    (hone : ∀ y ∈ labels, y = 1) :
    ∀ e ∈ rocFpr predictions labels, e = none := by
  intro e he
  have : rocFpr predictions labels
      = (rocFps labels predictions).map (fun (x : ℕ) =>
          if (rocFps labels predictions).getLastD 0 = 0 then none
          else some ((x : ℚ) / ((rocFps labels predictions).getLastD 0 : ℚ))) := rfl
  rw [this] at he
  obtain ⟨x, _, rfl⟩ := List.mem_map.mp he
  rw [if_pos (rocFps_getLastD_zero hone)]

theorem rocTpr_all_none {predictions : List ℚ} {labels : List ℕ}
    (hzero : ∀ y ∈ labels, y = 0) :
    ∀ e ∈ rocTpr predictions labels, e = none := by
  intro e he
  have : rocTpr predictions labels
      = (rocTps labels predictions).map (fun (x : ℕ) =>
          if (rocTps labels predictions).getLastD 0 = 0 then none
          else some ((x : ℚ) / ((rocTps labels predictions).getLastD 0 : ℚ))) := rfl
  rw [this] at he
  obtain ⟨x, _, rfl⟩ := List.mem_map.mp he
  rw [if_pos (rocTps_getLastD_zero hzero)]

theorem eerFnr_all_none {predictions : List ℚ} {labels : List ℕ}
    (hzero : ∀ y ∈ labels, y = 0) :
    ∀ e ∈ eerFnr predictions labels, e = none := by
  intro e he
  unfold eerFnr at he
  obtain ⟨x, hx, rfl⟩ := List.mem_map.mp he
  rw [rocTpr_all_none hzero x hx]
  rfl

theorem eerDiffs_all_none_left {fpr fnr : List (Option ℚ)}
    (h : ∀ e ∈ fpr, e = none) :
    ∀ d ∈ eerDiffs fpr fnr, d = none := by
  intro d hd
  obtain ⟨⟨p1, p2⟩, hp, rfl⟩ := List.mem_map.mp hd
  have h1 : p1 ∈ fpr := (List.of_mem_zip hp).1
  rw [h p1 h1]

theorem eerDiffs_all_none_right {fpr fnr : List (Option ℚ)}
    (h : ∀ e ∈ fnr, e = none) :
    ∀ d ∈ eerDiffs fpr fnr, d = none := by
  intro d hd
  obtain ⟨⟨p1, p2⟩, hp, rfl⟩ := List.mem_map.mp hd
  have h2 : p2 ∈ fnr := (List.of_mem_zip hp).2
  rw [h p2 h2]
  cases p1 <;> rfl

theorem npDiff_all_none {l : List (Option ℚ)} (h : ∀ e ∈ l, e = none) :
    ∀ d ∈ npDiff l, d = none := by
  intro d hd
  obtain ⟨⟨p1, p2⟩, hp, rfl⟩ := List.mem_map.mp hd
  have h1 : p1 ∈ l := (List.of_mem_zip hp).1
  rw [h p1 h1]

theorem npAnyLt0_of_all_none {l : List (Option ℚ)}
    (h : ∀ d ∈ l, d = none) : npAnyLt0 l = false := by
  unfold npAnyLt0
  rw [List.any_eq_false]
  intro x hx
  rw [h x hx]
  simp

theorem foldl_trapzStep_none (segs : List ((Option ℚ × Option ℚ) × (Option ℚ × Option ℚ))) :
    segs.foldl trapzStep none = none := by
  induction segs with
  | nil => rfl
  | cons s rest ih =>
    rw [List.foldl_cons]
    have : trapzStep none s = none := by
      rcases s with ⟨⟨x0, x1⟩, ⟨y0, y1⟩⟩
      rfl
    rw [this, ih]

theorem trapz_head_none {x0 x1 y0 y1 : Option ℚ} {xr yr : List (Option ℚ)}
    (h : x0 = none ∨ y0 = none) :
    trapz (y0 :: y1 :: yr) (x0 :: x1 :: xr) = none := by
  unfold trapz
  simp only [List.tail_cons, List.zip_cons_cons, List.foldl_cons]
  have hstep : trapzStep (some 0) ((x0, x1), (y0, y1)) = none := by
    rcases h with rfl | rfl
    · rfl
    · cases x0 <;> cases x1 <;> rfl
  rw [hstep, foldl_trapzStep_none]

theorem exists_two_cons {α} {l : List α} (h : 2 ≤ l.length) :
    ∃ a b t, l = a :: b :: t := by
  cases l with
  | nil => simp at h
  | cons a l' =>
    cases l' with
    | nil => simp at h
    | cons b t => exact ⟨a, b, t, rfl⟩

theorem rocScores_length (y_true : List ℕ) (y_score : List ℚ) :
    (rocScores y_true y_score).length = min y_score.length y_true.length := by
  unfold rocScores rocPoints sortDescPairs
  rw [List.length_map, (List.perm_insertionSort _ _).length_eq, List.length_zip]

/-- A non-decreasing `fps` array yields no negative entry in `np.diff` of
the rate array, whatever the normalising denominator. -/
theorem npAnyLt0_npDiff_map (l : List ℕ) (F : ℕ) (hpw : l.Pairwise (· ≤ ·)) :
    npAnyLt0 (npDiff (l.map (fun (x : ℕ) =>
      if F = 0 then none else some ((x : ℚ) / (F : ℚ))))) = false := by
  by_cases hF : F = 0
  · apply npAnyLt0_of_all_none
    apply npDiff_all_none
    intro e he
    obtain ⟨x, _, rfl⟩ := List.mem_map.mp he
    rw [if_pos hF]
  · unfold npAnyLt0
    rw [List.any_eq_false]
    intro d hd
    unfold npDiff at hd
    obtain ⟨⟨p1, p2⟩, hp, rfl⟩ := List.mem_map.mp hd
    have htail : (l.map (fun (x : ℕ) =>
        if F = 0 then none else some ((x : ℚ) / (F : ℚ)))).tail
        = l.tail.map (fun (x : ℕ) =>
        if F = 0 then none else some ((x : ℚ) / (F : ℚ))) := by
      cases l <;> rfl
    rw [htail, List.zip_map] at hp
    obtain ⟨⟨a, b⟩, hab, heq⟩ := List.mem_map.mp hp
    have hab' : a ≤ b := pairwise_le_zip_tail hpw (a, b) hab
    obtain ⟨hp1, hp2⟩ : (if F = 0 then none else some ((a : ℚ) / (F : ℚ))) = p1 ∧
        (if F = 0 then none else some ((b : ℚ) / (F : ℚ))) = p2 := by
      constructor
      · exact congrArg Prod.fst heq
      · exact congrArg Prod.snd heq
    rw [if_neg hF] at hp1 hp2
    subst hp1
    subst hp2
    have hFpos : (0 : ℚ) < (F : ℚ) := by
      exact_mod_cast Nat.pos_of_ne_zero hF
    have hdiv : (a : ℚ) / (F : ℚ) ≤ (b : ℚ) / (F : ℚ) := by
      gcongr
    simp [not_lt, sub_nonneg, hdiv]

/-- C5 (counterexample): for the one-class input `scores=[0.5]`,
`labels=[1]`, `calculate_auc_roc` surfaces no error — with warnings
suppressed it returns the float NaN (the `none` value). -/
theorem calculate_auc_roc_degenerate_returns_nan :
    calculate_auc_roc [1/2] [1] = .ok none := by
  with_unfolding_all rfl

/-- C5 (amended): on a one-class label vector, `calculate_eer` does
surface an error (`np.nanargmin` of an all-NaN array raises), but
`calculate_auc_roc` instead returns the meaningless float NaN — sklearn's
`UndefinedMetricWarning` is suppressed by `warnings.filterwarnings('ignore')`
and `auc`'s monotonicity check treats NaN comparisons as `False`. -/
theorem degenerate_labels_behavior
    (predictions : List ℚ) (labels : List ℕ)
    (hlen : predictions.length = labels.length)
    (hone : (∀ y ∈ labels, y = 1) ∨ (∀ y ∈ labels, y = 0)) :
    (∃ err, calculate_eer predictions labels = .error err) ∧
    (labels ≠ [] → calculate_auc_roc predictions labels = .ok none) := by
  have hdiffs : ∀ d ∈ eerDiffs (rocFpr predictions labels)
      (eerFnr predictions labels), d = none := by
    rcases hone with h1 | h0
    · exact eerDiffs_all_none_left (rocFpr_all_none h1)
    · exact eerDiffs_all_none_right (eerFnr_all_none h0)
  constructor
  · refine ⟨"All-NaN slice encountered", ?_⟩
    unfold calculate_eer
    rw [if_neg (by omega), nanArgminVal_eq_none_iff.mpr hdiffs]
  · intro hne
    have hn : 0 < (rocScores labels predictions).length := by
      rw [rocScores_length]
      have := List.length_pos.mpr hne
      omega
    have hx2 : 2 ≤ (rocFps labels predictions).length := rocFps_length_pos hn
    obtain ⟨hlen1, hlen2⟩ := roc_lengths labels predictions
    have hfprlen : (rocFpr predictions labels).length
        = (rocFps labels predictions).length := by
      simp [rocFpr, roc_curve]
    have htprlen : (rocTpr predictions labels).length
        = (rocFps labels predictions).length := by
      simp [rocTpr, roc_curve, hlen1]
    unfold calculate_auc_roc
    rw [if_neg (by omega)]
    unfold sklearnAuc
    rw [if_neg (by omega)]
    rw [if_neg (by omega)]
    have hany : npAnyLt0 (npDiff (rocFpr predictions labels)) = false := by
      rcases hone with h1 | h0
      · exact npAnyLt0_of_all_none (npDiff_all_none (rocFpr_all_none h1))
      · have heq : rocFpr predictions labels
            = (rocFps labels predictions).map (fun (x : ℕ) =>
                if (rocFps labels predictions).getLastD 0 = 0 then none
                else some ((x : ℚ) /
                  ((rocFps labels predictions).getLastD 0 : ℚ))) := rfl
        rw [heq]
        exact npAnyLt0_npDiff_map _ _
          (rocFps_pairwise (fun y hy => by rw [h0 y hy]; exact Nat.zero_le 1))
    rw [hany, if_neg (by simp)]
    obtain ⟨a, b, t, hx⟩ := exists_two_cons
      (show 2 ≤ (rocFpr predictions labels).length by omega)
    obtain ⟨c, d, t', hy⟩ := exists_two_cons
      (show 2 ≤ (rocTpr predictions labels).length by omega)
    rw [hx, hy]
    rcases hone with h1 | h0
    · have ha : a = none := rocFpr_all_none h1 a (by rw [hx]; simp)
      subst ha
      rw [trapz_head_none (Or.inl rfl)]
    · have hc : c = none := rocTpr_all_none h0 c (by rw [hy]; simp)
      subst hc
      rw [trapz_head_none (Or.inr rfl)]

/-- C5 (witness): a concrete all-positive label vector errors in
`calculate_eer` and yields NaN from `calculate_auc_roc`. -/
theorem degenerate_labels_behavior_witness :
    (∃ err, calculate_eer [1/2, 3/4] [1, 1] = .error err) ∧
    (([1, 1] : List ℕ) ≠ [] → calculate_auc_roc [1/2, 3/4] [1, 1] = .ok none) :=
  degenerate_labels_behavior [1/2, 3/4] [1, 1] (by rfl)
    (Or.inl (by decide))

/-! ### Substring lemmas for the report text -/

theorem leadsWith_self (n : List Char) : leadsWith n n = true := by
  induction n with
  | nil => rfl
  | cons c cs ih => simp [leadsWith, ih]

theorem leadsWith_append {n s : List Char} (t : List Char)
    (h : leadsWith n s = true) : leadsWith n (s ++ t) = true := by
  induction n generalizing s with
  | nil => rfl
  | cons c cs ih =>
    cases s with
    | nil => simp [leadsWith] at h
    | cons b bs =>
      simp only [leadsWith, Bool.and_eq_true] at h
      simp only [List.cons_append, leadsWith, Bool.and_eq_true]
      exact ⟨h.1, ih h.2⟩

theorem leadsWith_self_append (n t : List Char) :
    leadsWith n (n ++ t) = true :=
  leadsWith_append t (leadsWith_self n)

theorem occursIn_of_leads {n h : List Char} (hl : leadsWith n h = true) :
    occursIn n h = true := by
  cases h with
  | nil => exact hl
  | cons c cs => simp [occursIn, hl]

theorem occursIn_append_right {n t : List Char} (h : List Char)
    (ho : occursIn n t = true) : occursIn n (h ++ t) = true := by
  induction h with
  | nil => exact ho
  | cons c cs ih => simp [occursIn, ih]

theorem occursIn_append_left {n h : List Char} (t : List Char)
    (ho : occursIn n h = true) : occursIn n (h ++ t) = true := by
  induction h with
  | nil =>
    cases n with
    | nil => exact occursIn_of_leads rfl
    | cons c cs => simp [occursIn, leadsWith] at ho
  | cons c cs ih =>
    simp only [occursIn, Bool.or_eq_true] at ho
    rcases ho with ho | ho
    · exact occursIn_of_leads (leadsWith_append t ho)
    · simp only [List.cons_append, occursIn, Bool.or_eq_true]
      exact Or.inr (ih ho)

theorem occursStr_append_left (a b n : String)
    (h : occursStr a n = true) : occursStr (a ++ b) n = true := by
  unfold occursStr at h ⊢
  exact occursIn_append_left b.data h

theorem occursStr_append_right (a b n : String)
    (h : occursStr b n = true) : occursStr (a ++ b) n = true := by
  unfold occursStr at h ⊢
  exact occursIn_append_right a.data h

/-- The needle `lab ++ v` occurs in `(P ++ lab) ++ v`. -/
theorem occursStr_concat2 (P lab v : String) :
    occursStr ((P ++ lab) ++ v) (lab ++ v) = true := by
  unfold occursStr
  show occursIn (lab.data ++ v.data) ((P.data ++ lab.data) ++ v.data) = true
  rw [List.append_assoc]
  exact occursIn_append_right P.data (occursIn_of_leads (leadsWith_self _))

attribute [irreducible] occursStr

set_option maxRecDepth 20000 in
set_option maxHeartbeats 2000000 in
/-- C8 (counterexample): in the report for `scores=[0.9,0.8,0.1]`,
`labels=[1,1,0]` the confusion count tp = 2 is rendered by `:.0f` as `2` —
the string `2.0000` demanded by "every embedded numeric value … formatted
to 4 decimal places" appears nowhere, while the count line does. -/
theorem report_counts_zero_decimals :
    (generate_evaluation_report [9/10, 8/10, 1/10] [1, 1, 0] "Test").map
      (fun r => (occursStr r "2.0000",
                 occursStr r "True Positives (AI를 AI로):     2"))
      = .ok (false, true) := by
  with_unfolding_all rfl

set_option linter.unusedTactic false in
set_option maxHeartbeats 4000000 in
/-- C8 (amended): every successful report embeds the four fixed section
headers, every classification metric, error rate, EER, EER threshold and
AUC formatted to 4 decimal places (`pyFmt 4`, with NaN/inf spelled
`nan`/`inf`), and the four confusion counts formatted as integers with 0
decimal places (`pyFmt 0`), not 4. -/
theorem report_structure
    (predictions : List ℚ) (labels : List ℕ) (model_name s : String)
    (h : generate_evaluation_report predictions labels model_name = .ok s) :
    ∃ (m : Metrics) (auc_score : Option ℚ) (e : ℚ) (th : Option ℚ),
      calculate_metrics predictions labels (1/2) = .ok m ∧
      calculate_auc_roc predictions labels = .ok auc_score ∧
      calculate_eer predictions labels = .ok (e, th) ∧
      occursStr s "분류 메트릭:" = true ∧
      occursStr s "오류율:" = true ∧
      occursStr s "ROC 분석:" = true ∧
      occursStr s "혼동 행렬:" = true ∧
      occursStr s ("\n    정확도 (Accuracy):    " ++ pyFmt 4 m.accuracy) = true ∧
      occursStr s ("\n    정밀도 (Precision):   " ++ pyFmt 4 m.precision) = true ∧
      occursStr s ("\n    재현율 (Recall):      " ++ pyFmt 4 m.recall') = true ∧
      occursStr s ("\n    F1-Score:            " ++ pyFmt 4 m.f1_score) = true ∧
      occursStr s ("\n    특이도 (Specificity): " ++ pyFmt 4 m.specificity) = true ∧
      occursStr s ("\n    오탐율 (FPR): " ++ pyFmt 4 m.fpr) = true ∧
      occursStr s ("\n    미탐율 (FNR): " ++ pyFmt 4 m.fnr) = true ∧
      occursStr s ("\n    EER:         " ++ pyFmt 4 e) = true ∧
      occursStr s (" (임계값: " ++ pyFmtInf 4 th) = true ∧
      occursStr s ("\n    AUC-ROC:    " ++ pyFmtNan 4 auc_score) = true ∧
      occursStr s ("\n    True Positives (AI를 AI로):     " ++ pyFmt 0 (m.tp : ℚ)) = true ∧
      occursStr s ("\n    True Negatives (사람을 사람으로):  " ++ pyFmt 0 (m.tn : ℚ)) = true ∧
      occursStr s ("\n    False Positives (사람을 AI로):   " ++ pyFmt 0 (m.fp : ℚ)) = true ∧
      occursStr s ("\n    False Negatives (AI를 사람으로):  " ++ pyFmt 0 (m.fn : ℚ)) = true := by
  unfold generate_evaluation_report at h
  split at h
  · exact absurd h (by simp)
  · rename_i m hm
    split at h
    · exact absurd h (by simp)
    · rename_i auc hauc
      split at h
      · exact absurd h (by simp)
      · rename_i ee hee
        simp only [Except.ok.injEq] at h
        obtain ⟨e, th⟩ := ee
        subst h
        refine ⟨m, auc, e, th, hm, hauc, hee, ?_, ?_, ?_, ?_, ?_, ?_, ?_,
          ?_, ?_, ?_, ?_, ?_, ?_, ?_, ?_, ?_, ?_, ?_⟩ <;>
        · unfold reportTemplate
          repeat (first
            | exact occursStr_concat2 _ _ _
            | (apply occursStr_append_right; with_unfolding_all decide)
            | apply occursStr_append_left)

set_option maxRecDepth 20000 in
set_option maxHeartbeats 2000000 in
/-- C8 (witness): the structure theorem at a concrete input. -/
theorem report_structure_witness :
    ∃ (m : Metrics) (auc_score : Option ℚ) (e : ℚ) (th : Option ℚ),
      calculate_metrics [9/10, 8/10, 1/10] [1, 1, 0] (1/2) = .ok m ∧
      calculate_auc_roc [9/10, 8/10, 1/10] [1, 1, 0] = .ok auc_score ∧
      calculate_eer [9/10, 8/10, 1/10] [1, 1, 0] = .ok (e, th) ∧
      occursStr ((generate_evaluation_report [9/10, 8/10, 1/10] [1, 1, 0]
        "Test").toOption.getD "") "분류 메트릭:" = true ∧
      occursStr ((generate_evaluation_report [9/10, 8/10, 1/10] [1, 1, 0]
        "Test").toOption.getD "") "오류율:" = true ∧
      occursStr ((generate_evaluation_report [9/10, 8/10, 1/10] [1, 1, 0]
        "Test").toOption.getD "") "ROC 분석:" = true ∧
      occursStr ((generate_evaluation_report [9/10, 8/10, 1/10] [1, 1, 0]
        "Test").toOption.getD "") "혼동 행렬:" = true ∧
      occursStr ((generate_evaluation_report [9/10, 8/10, 1/10] [1, 1, 0]
        "Test").toOption.getD "")
        ("\n    정확도 (Accuracy):    " ++ pyFmt 4 m.accuracy) = true ∧
      occursStr ((generate_evaluation_report [9/10, 8/10, 1/10] [1, 1, 0]
        "Test").toOption.getD "")
        ("\n    정밀도 (Precision):   " ++ pyFmt 4 m.precision) = true ∧
      occursStr ((generate_evaluation_report [9/10, 8/10, 1/10] [1, 1, 0]
        "Test").toOption.getD "")
        ("\n    재현율 (Recall):      " ++ pyFmt 4 m.recall') = true ∧
      occursStr ((generate_evaluation_report [9/10, 8/10, 1/10] [1, 1, 0]
        "Test").toOption.getD "")
        ("\n    F1-Score:            " ++ pyFmt 4 m.f1_score) = true ∧
      occursStr ((generate_evaluation_report [9/10, 8/10, 1/10] [1, 1, 0]
        "Test").toOption.getD "")
        ("\n    특이도 (Specificity): " ++ pyFmt 4 m.specificity) = true ∧
      occursStr ((generate_evaluation_report [9/10, 8/10, 1/10] [1, 1, 0]
        "Test").toOption.getD "")
        ("\n    오탐율 (FPR): " ++ pyFmt 4 m.fpr) = true ∧
      occursStr ((generate_evaluation_report [9/10, 8/10, 1/10] [1, 1, 0]
        "Test").toOption.getD "")
        ("\n    미탐율 (FNR): " ++ pyFmt 4 m.fnr) = true ∧
      occursStr ((generate_evaluation_report [9/10, 8/10, 1/10] [1, 1, 0]
        "Test").toOption.getD "")
        ("\n    EER:         " ++ pyFmt 4 e) = true ∧
      occursStr ((generate_evaluation_report [9/10, 8/10, 1/10] [1, 1, 0]
        "Test").toOption.getD "")
        (" (임계값: " ++ pyFmtInf 4 th) = true ∧
      occursStr ((generate_evaluation_report [9/10, 8/10, 1/10] [1, 1, 0]
        "Test").toOption.getD "")
        ("\n    AUC-ROC:    " ++ pyFmtNan 4 auc_score) = true ∧
      occursStr ((generate_evaluation_report [9/10, 8/10, 1/10] [1, 1, 0]
        "Test").toOption.getD "")
        ("\n    True Positives (AI를 AI로):     " ++ pyFmt 0 (m.tp : ℚ)) = true ∧
      occursStr ((generate_evaluation_report [9/10, 8/10, 1/10] [1, 1, 0]
        "Test").toOption.getD "")
        ("\n    True Negatives (사람을 사람으로):  " ++ pyFmt 0 (m.tn : ℚ)) = true ∧
      occursStr ((generate_evaluation_report [9/10, 8/10, 1/10] [1, 1, 0]
        "Test").toOption.getD "")
        ("\n    False Positives (사람을 AI로):   " ++ pyFmt 0 (m.fp : ℚ)) = true ∧
      occursStr ((generate_evaluation_report [9/10, 8/10, 1/10] [1, 1, 0]
        "Test").toOption.getD "")
        ("\n    False Negatives (AI를 사람으로):  " ++ pyFmt 0 (m.fn : ℚ)) = true :=
  report_structure [9/10, 8/10, 1/10] [1, 1, 0] "Test"
    ((generate_evaluation_report [9/10, 8/10, 1/10] [1, 1, 0]
      "Test").toOption.getD "")
    (by with_unfolding_all rfl)

end MetricsPy
